import Mathlib

/-!
Verification of the GBLN Kotlin binding (gbln-org/gbln-kotlin).

The repository contains the JNI glue layer (src/main/cpp/gbln_jni.cpp and
gbln_jni.h) and C tests (correct_test.c, direct_test.c, debug_test.c) that
exercise the core gbln library.  The core library itself (gbln.h /
libgbln: value model, parser, serializer) is not part of the repository
source tree, so its behaviour is modelled here from the specification
(marked `Modelled from the spec:` on each such definition).  The JNI layer
is embedded directly from gbln_jni.cpp.

Conventions of the embedding:
* GBLN text is modelled as `List Char`.  The lexer of the spec is UTF-8
  aware and never splits a multi-byte code point, and all structural and
  whitespace bytes are ASCII, so the character level embedding is exact;
  byte lengths are recovered with `Char.utf8Size`.
* JNI `jlong` value handles are modelled as `Option GblnValue` (`none` is
  the null pointer / the return value 0); `jstring` is `Option String`
  (`none` is a null Java string).
* The process-wide last-error slot of the core is an explicit
  `Option String` threaded through the stateful entry points.
* Machine-integer casts in the C++ glue (e.g. `static_cast<uint8_t>` on a
  `jshort`) are modelled with explicit `% 2^w` arithmetic on `Int`/`Nat`.
* Floating point payloads: the spec stores decimal literals at the
  target precision; the model represents an `f32`/`f64` payload as the
  exact decimal it was written as, in the normal form `m * 10^(-e)`
  with `e = 0 ∨ m` not divisible by 10.
-/

/-- The GBLN error taxonomy of the spec (section 4.4). -/
inductive GblnError where
  | lexError
  | formatError
  | rangeError
  | lengthError
  | typeError
  | duplicateKeyError
  | unterminatedError
  | ioError
  deriving Repr, DecidableEq

/-- Modelled from the spec: the tagged union `Value` of the GBLN data
model (section 3).  Scalar variants own their payload directly; `str`
records the declared maximum byte length; objects are insertion-ordered
key/value lists; arrays are ordered element lists.  Float payloads are
exact decimals `m * 10^(-e)`. -/
inductive GblnValue where
  | null
  | bool (b : Bool)
  | i8 (v : Int)
  | i16 (v : Int)
  | i32 (v : Int)
  | i64 (v : Int)
  | u8 (v : Nat)
  | u16 (v : Nat)
  | u32 (v : Nat)
  | u64 (v : Nat)
  | f32 (m : Int) (e : Nat)
  | f64 (m : Int) (e : Nat)
  | str (maxLen : Nat) (s : String)
  | object (entries : List (String × GblnValue))
  | array (elems : List GblnValue)

/-- The type tags of the grammar (section 4.1): `i8..i64, u8..u64, f32,
f64, b, sN`. -/
inductive GTag where
  | ti8 | ti16 | ti32 | ti64
  | tu8 | tu16 | tu32 | tu64
  | tf32 | tf64
  | tb
  | ts (maxLen : Nat)
  deriving Repr, DecidableEq

/-- Structural punctuation bytes of the grammar. -/
def isStructuralChar (c : Char) : Bool :=
  c = '<' || c = '>' || c = '(' || c = ')' ||
  c = '[' || c = ']' || c = '{' || c = '}'

/-- Whitespace: space, tab, newline (section 4.1). -/
def isWsChar (c : Char) : Bool :=
  c = ' ' || c = '\t' || c = '\n'

/-- A literal/identifier character: non-structural and non-whitespace. -/
def isLitChar (c : Char) : Bool :=
  !isStructuralChar c && !isWsChar c

/-- Skip leading whitespace. -/
def skipWs : List Char → List Char
  | [] => []
  | c :: rest => if isWsChar c then skipWs rest else c :: rest

/-- Take the maximal leading run of literal characters. -/
def takeRun : List Char → List Char × List Char
  | [] => ([], [])
  | c :: rest =>
    if isLitChar c then
      let p := takeRun rest
      (c :: p.1, p.2)
    else ([], c :: rest)

/-- UTF-8 byte length of a character sequence. -/
def utf8Len (cs : List Char) : Nat :=
  (cs.map Char.utf8Size).sum

-- Decimal digit machinery ---------------------------------------------------

/-- The ASCII digit character for `n < 10`. -/
def digitChar (n : Nat) : Char := Char.ofNat (48 + n)

/-- Is `c` an ASCII decimal digit? -/
def isDigitChar (c : Char) : Bool :=
  48 ≤ c.toNat && c.toNat ≤ 57

/-- Numeric value of an ASCII digit character. -/
def digitVal (c : Char) : Nat := c.toNat - 48

/-- Value of a digit string, most significant digit first. -/
def digitsVal (cs : List Char) : Nat :=
  cs.foldl (fun a c => a * 10 + digitVal c) 0

/-- Base-10 digit expansion of a natural number, most significant first. -/
def natDigits (n : Nat) : List Char :=
  if h : n < 10 then [digitChar n]
  else natDigits (n / 10) ++ [digitChar (n % 10)]
  decreasing_by exact Nat.div_lt_self (by omega) (by omega)

theorem digitVal_digitChar (n : Nat) (h : n < 10) :
    digitVal (digitChar n) = n := by
  interval_cases n <;> decide

theorem isDigitChar_digitChar (n : Nat) (h : n < 10) :
    isDigitChar (digitChar n) = true := by
  interval_cases n <;> decide

theorem isLitChar_of_isDigitChar (c : Char) (h : isDigitChar c = true) :
    isLitChar c = true := by
  have hn : 48 ≤ c.toNat ∧ c.toNat ≤ 57 := by
    simpa [isDigitChar] using h
  simp only [isLitChar, isStructuralChar, isWsChar, Bool.and_eq_true,
    Bool.not_eq_true', Bool.or_eq_false_iff, decide_eq_false_iff_not]
  and_intros <;> · intro hcd; subst hcd; exact absurd hn (by decide)

theorem digitsVal_foldl (a : Nat) (cs : List Char) :
    cs.foldl (fun a c => a * 10 + digitVal c) a =
      a * 10 ^ cs.length + digitsVal cs := by
  induction cs generalizing a with
  | nil => simp [digitsVal]
  | cons c t ih =>
    simp only [List.foldl_cons, List.length_cons]
    rw [ih]
    have hc : digitsVal (c :: t) = digitVal c * 10 ^ t.length + digitsVal t := by
      simp only [digitsVal, List.foldl_cons]
      rw [ih (0 * 10 + digitVal c)]
      simp only [digitsVal]
      ring
    rw [hc, pow_succ]
    ring

theorem digitsVal_append (xs ys : List Char) :
    digitsVal (xs ++ ys) =
      digitsVal xs * 10 ^ ys.length + digitsVal ys := by
  simp only [digitsVal, List.foldl_append]
  rw [digitsVal_foldl]
  rfl

theorem natDigits_ne_nil (n : Nat) : natDigits n ≠ [] := by
  rw [natDigits]
  split <;> simp

theorem natDigits_all_digits (n : Nat) :
    (natDigits n).all isDigitChar = true := by
  induction n using Nat.strong_induction_on with
  | _ n ih =>
    rw [natDigits]
    split
    · rename_i h
      simp [isDigitChar_digitChar n h]
    · rename_i h
      rw [List.all_append]
      have hd := ih (n / 10) (Nat.div_lt_self (by omega) (by omega))
      rw [hd]
      simp [isDigitChar_digitChar (n % 10) (Nat.mod_lt _ (by omega))]

theorem digitsVal_natDigits (n : Nat) :
    digitsVal (natDigits n) = n := by
  induction n using Nat.strong_induction_on with
  | _ n ih =>
    rw [natDigits]
    split
    · rename_i h
      simp [digitsVal, digitVal_digitChar n h]
    · rename_i h
      rw [digitsVal_append]
      have hd := ih (n / 10) (Nat.div_lt_self (by omega) (by omega))
      simp only [List.length_cons, List.length_nil, pow_one, hd]
      have : digitsVal [digitChar (n % 10)] = n % 10 := by
        simp [digitsVal, digitVal_digitChar (n % 10) (Nat.mod_lt _ (by omega))]
      rw [this]
      omega

-- takeRun / skipWs lemmas ---------------------------------------------------

theorem not_ws_of_lit (c : Char) (h : isLitChar c = true) :
    isWsChar c = false := by
  simp only [isLitChar, Bool.and_eq_true, Bool.not_eq_true'] at h
  exact h.2

theorem skipWs_cons_of_not_ws (c : Char) (rest : List Char)
    (h : isWsChar c = false) : skipWs (c :: rest) = c :: rest := by
  simp [skipWs, h]

theorem skipWs_cons_of_ws (c : Char) (rest : List Char)
    (h : isWsChar c = true) : skipWs (c :: rest) = skipWs rest := by
  simp [skipWs, h]

/-- The next character (if any) is not a literal character. -/
def headNotLit : List Char → Prop
  | [] => True
  | c :: _ => isLitChar c = false

theorem takeRun_append (xs rest : List Char)
    (hx : xs.all isLitChar = true) (hr : headNotLit rest) :
    takeRun (xs ++ rest) = (xs, rest) := by
  induction xs with
  | nil =>
    simp only [List.nil_append]
    cases rest with
    | nil => rfl
    | cons c t =>
      simp only [headNotLit] at hr
      simp [takeRun, hr]
  | cons c t ih =>
    simp only [List.all_cons, Bool.and_eq_true] at hx
    simp [takeRun, hx.1, ih hx.2]

theorem takeRun_eq_append (cs : List Char) :
    cs = (takeRun cs).1 ++ (takeRun cs).2 := by
  induction cs with
  | nil => rfl
  | cons c t ih =>
    by_cases h : isLitChar c = true
    · simp only [takeRun, h, if_pos]
      simpa using ih
    · simp only [takeRun, Bool.not_eq_true] at *
      simp [h]

theorem takeRun_all_lit (cs : List Char) :
    (takeRun cs).1.all isLitChar = true := by
  induction cs with
  | nil => rfl
  | cons c t ih =>
    by_cases h : isLitChar c = true
    · simp [takeRun, h, ih]
    · simp only [Bool.not_eq_true] at h
      simp [takeRun, h]

-- Integer literals ----------------------------------------------------------

/-- Modelled from the spec: decode a plain decimal digit string (used for
integer literals and the `sN` tag parameter). -/
def parseDigits (cs : List Char) : Option Nat :=
  if cs = [] then none
  else if cs.all isDigitChar then some (digitsVal cs) else none

theorem parseDigits_natDigits (n : Nat) :
    parseDigits (natDigits n) = some n := by
  simp [parseDigits, natDigits_ne_nil, natDigits_all_digits,
    digitsVal_natDigits]

/-- Modelled from the spec: decode an integer literal, base 10, with an
optional leading `+` (any tag) or `-` (signed tags only). -/
def parseIntLit (signedTag : Bool) (run : List Char) : Option Int :=
  match run with
  | [] => none
  | c :: rest =>
    if c = '+' then (parseDigits rest).map (fun n => (n : Int))
    else if c = '-' then
      if signedTag then (parseDigits rest).map (fun n => -(n : Int)) else none
    else (parseDigits (c :: rest)).map (fun n => (n : Int))

/-- Modelled from the spec: canonical text of an integer payload. -/
def intRepr (v : Int) : List Char :=
  if v < 0 then '-' :: natDigits v.natAbs else natDigits v.toNat

theorem exists_head_digit (n : Nat) :
    ∃ c rest, natDigits n = c :: rest ∧ isDigitChar c = true := by
  cases h : natDigits n with
  | nil => exact absurd h (natDigits_ne_nil n)
  | cons c rest =>
    refine ⟨c, rest, rfl, ?_⟩
    have := natDigits_all_digits n
    rw [h] at this
    simp only [List.all_cons, Bool.and_eq_true] at this
    exact this.1

theorem digit_ne_plus (c : Char) (h : isDigitChar c = true) : (c = '+') = False := by
  have hn : 48 ≤ c.toNat ∧ c.toNat ≤ 57 := by simpa [isDigitChar] using h
  simp only [eq_iff_iff, iff_false]
  intro hc
  subst hc
  exact absurd hn (by decide)

theorem digit_ne_minus (c : Char) (h : isDigitChar c = true) : (c = '-') = False := by
  have hn : 48 ≤ c.toNat ∧ c.toNat ≤ 57 := by simpa [isDigitChar] using h
  simp only [eq_iff_iff, iff_false]
  intro hc
  subst hc
  exact absurd hn (by decide)

theorem digit_ne_dot (c : Char) (h : isDigitChar c = true) : (c = '.') = False := by
  have hn : 48 ≤ c.toNat ∧ c.toNat ≤ 57 := by simpa [isDigitChar] using h
  simp only [eq_iff_iff, iff_false]
  intro hc
  subst hc
  exact absurd hn (by decide)

theorem parseIntLit_digitHead (signedTag : Bool) (c : Char) (rest : List Char)
    (hd : isDigitChar c = true) :
    parseIntLit signedTag (c :: rest) =
      (parseDigits (c :: rest)).map (fun n => (n : Int)) := by
  simp only [parseIntLit, digit_ne_plus c hd, digit_ne_minus c hd, if_false]

theorem parseIntLit_intRepr (signedTag : Bool) (v : Int)
    (h : 0 ≤ v ∨ signedTag = true) :
    parseIntLit signedTag (intRepr v) = some v := by
  by_cases hneg : v < 0
  · have hs : signedTag = true := by
      rcases h with h | h
      · omega
      · exact h
    subst hs
    have he : intRepr v = '-' :: natDigits v.natAbs := by
      simp [intRepr, hneg]
    rw [he]
    simp only [parseIntLit]
    simp [parseDigits_natDigits]
    simp [abs_of_neg hneg]
  · have he : intRepr v = natDigits v.toNat := by
      simp [intRepr, hneg]
    rw [he]
    obtain ⟨c, rest, heq, hdig⟩ := exists_head_digit v.toNat
    rw [heq, parseIntLit_digitHead signedTag c rest hdig, ← heq,
      parseDigits_natDigits]
    have hv : ((v.toNat : Int)) = v := by omega
    simp [hv]

theorem intRepr_all_lit (v : Int) : (intRepr v).all isLitChar = true := by
  have hd : ∀ n : Nat, (natDigits n).all isLitChar = true := by
    intro n
    have := natDigits_all_digits n
    rw [List.all_eq_true] at this ⊢
    exact fun c hc => isLitChar_of_isDigitChar c (this c hc)
  simp only [intRepr]
  split
  · simp only [List.all_cons, Bool.and_eq_true]
    exact ⟨by decide, hd _⟩
  · exact hd _

-- Decimal (float) literals --------------------------------------------------

/-- Split a literal at its first dot, if any. -/
def breakDot : List Char → List Char × Option (List Char)
  | [] => ([], none)
  | c :: rest =>
    if c = '.' then ([], some rest)
    else
      let p := breakDot rest
      (c :: p.1, p.2)

/-- Strip trailing decimal zeros: normal form of an exact decimal
`m * 10^(-e)`. -/
def normDec : Nat → Nat → Nat × Nat
  | m, 0 => (m, 0)
  | m, e+1 => if m % 10 = 0 then normDec (m / 10) e else (m, e+1)

/-- Modelled from the spec: decode the digits of a decimal float literal
(optional fractional part), producing the exact normalized decimal. -/
def parseDecDigits (run : List Char) : Option (Nat × Nat) :=
  match breakDot run with
  | (ip, none) => (parseDigits ip).map (fun n => (n, 0))
  | (ip, some fp) =>
    match parseDigits ip, parseDigits fp with
    | some a, some b => some (normDec (a * 10 ^ fp.length + b) fp.length)
    | _, _ => none

/-- Modelled from the spec: decode a float literal with optional sign. -/
def parseDecLit (run : List Char) : Option (Int × Nat) :=
  match run with
  | [] => none
  | c :: rest =>
    if c = '+' then (parseDecDigits rest).map (fun p => ((p.1 : Int), p.2))
    else if c = '-' then (parseDecDigits rest).map (fun p => (-(p.1 : Int), p.2))
    else (parseDecDigits (c :: rest)).map (fun p => ((p.1 : Int), p.2))

/-- Digit string of `a` padded with leading zeros to at least `e+1`
digits. -/
def padDigits (a e : Nat) : List Char :=
  List.replicate (e + 1 - (natDigits a).length) '0' ++ natDigits a

/-- Modelled from the spec: canonical text of the magnitude of an exact
decimal `a * 10^(-e)` (a dot with `e` fractional digits when `e > 0`). -/
def decReprNat (a e : Nat) : List Char :=
  if e = 0 then natDigits a
  else
    (padDigits a e).take ((padDigits a e).length - e) ++
      '.' :: (padDigits a e).drop ((padDigits a e).length - e)

/-- Modelled from the spec: canonical text of a float payload. -/
def decRepr (m : Int) (e : Nat) : List Char :=
  if m < 0 then '-' :: decReprNat m.natAbs e else decReprNat m.natAbs e

/-- The normal-form invariant of a stored decimal payload. -/
def decNormal (m : Int) (e : Nat) : Bool :=
  e == 0 || m.natAbs % 10 != 0

theorem digitsVal_cons_zero (t : List Char) :
    digitsVal ('0' :: t) = digitsVal t := by
  simp [digitsVal, List.foldl_cons]
  rfl

theorem digitsVal_replicate_zero_append (k : Nat) (ds : List Char) :
    digitsVal (List.replicate k '0' ++ ds) = digitsVal ds := by
  induction k with
  | zero => simp
  | succ k ih =>
    rw [List.replicate_succ, List.cons_append, digitsVal_cons_zero, ih]

theorem padDigits_all_digits (a e : Nat) :
    (padDigits a e).all isDigitChar = true := by
  rw [padDigits, List.all_append]
  have h1 : (List.replicate (e + 1 - (natDigits a).length) '0').all
      isDigitChar = true := by
    rw [List.all_eq_true]
    intro c hc
    rw [List.eq_of_mem_replicate hc]
    decide
  rw [h1, natDigits_all_digits]
  rfl

theorem padDigits_length (a e : Nat) : e + 1 ≤ (padDigits a e).length := by
  rw [padDigits, List.length_append, List.length_replicate]
  have := natDigits_ne_nil a
  have : 1 ≤ (natDigits a).length := by
    cases h : natDigits a with
    | nil => exact absurd h (natDigits_ne_nil a)
    | cons c t => simp
  omega

theorem digitsVal_padDigits (a e : Nat) : digitsVal (padDigits a e) = a := by
  rw [padDigits, digitsVal_replicate_zero_append, digitsVal_natDigits]

theorem breakDot_no_dot (xs : List Char) (h : xs.all isDigitChar = true) :
    breakDot xs = (xs, none) := by
  induction xs with
  | nil => rfl
  | cons c t ih =>
    rw [List.all_cons, Bool.and_eq_true] at h
    simp [breakDot, digit_ne_dot c h.1, ih h.2]

theorem breakDot_append_dot (xs ys : List Char)
    (h : xs.all isDigitChar = true) :
    breakDot (xs ++ '.' :: ys) = (xs, some ys) := by
  induction xs with
  | nil => simp [breakDot]
  | cons c t ih =>
    rw [List.all_cons, Bool.and_eq_true] at h
    simp [breakDot, digit_ne_dot c h.1, ih h.2]

theorem normDec_of_normal (a e : Nat) (h : e = 0 ∨ a % 10 ≠ 0) :
    normDec a e = (a, e) := by
  cases e with
  | zero => rfl
  | succ e =>
    have ha : a % 10 ≠ 0 := by
      rcases h with h | h
      · omega
      · exact h
    simp [normDec, ha]

theorem parseDigits_of_digits (cs : List Char) (h1 : cs ≠ [])
    (h2 : cs.all isDigitChar = true) :
    parseDigits cs = some (digitsVal cs) := by
  simp [parseDigits, h1, h2]

theorem all_lit_of_all_digits (cs : List Char)
    (h : cs.all isDigitChar = true) : cs.all isLitChar = true := by
  rw [List.all_eq_true] at h ⊢
  exact fun c hc => isLitChar_of_isDigitChar c (h c hc)

theorem parseDecDigits_decReprNat (a e : Nat) (h : e = 0 ∨ a % 10 ≠ 0) :
    parseDecDigits (decReprNat a e) = some (a, e) := by
  by_cases he : e = 0
  · subst he
    rw [decReprNat, if_pos rfl]
    rw [parseDecDigits, breakDot_no_dot _ (natDigits_all_digits a)]
    simp [parseDigits_natDigits, digitsVal_natDigits]
  · rw [decReprNat, if_neg he]
    have hlen := padDigits_length a e
    have hall := padDigits_all_digits a e
    have hip : ((padDigits a e).take ((padDigits a e).length - e)).all
        isDigitChar = true := by
      rw [List.all_eq_true] at hall ⊢
      exact fun c hc => hall c ((List.take_sublist _ _).subset hc)
    have hfp : ((padDigits a e).drop ((padDigits a e).length - e)).all
        isDigitChar = true := by
      rw [List.all_eq_true] at hall ⊢
      exact fun c hc => hall c ((List.drop_sublist _ _).subset hc)
    have hiplen : ((padDigits a e).take ((padDigits a e).length - e)).length =
        (padDigits a e).length - e := by
      rw [List.length_take]
      omega
    have hfplen : ((padDigits a e).drop ((padDigits a e).length - e)).length
        = e := by
      rw [List.length_drop]
      omega
    have hipne : (padDigits a e).take ((padDigits a e).length - e) ≠ [] := by
      intro hc
      rw [hc] at hiplen
      simp at hiplen
      omega
    have hfpne : (padDigits a e).drop ((padDigits a e).length - e) ≠ [] := by
      intro hc
      rw [hc] at hfplen
      simp at hfplen
      omega
    rw [parseDecDigits, breakDot_append_dot _ _ hip]
    dsimp only
    rw [parseDigits_of_digits _ hipne hip, parseDigits_of_digits _ hfpne hfp]
    have hsum : digitsVal ((padDigits a e).take ((padDigits a e).length - e))
          * 10 ^ ((padDigits a e).drop ((padDigits a e).length - e)).length
        + digitsVal ((padDigits a e).drop ((padDigits a e).length - e))
        = a := by
      rw [← digitsVal_append, List.take_append_drop, digitsVal_padDigits]
    rw [hfplen] at hsum
    simp only [hfplen, hsum]
    rw [normDec_of_normal a e h]

theorem exists_head_digit_decReprNat (a e : Nat) :
    ∃ c rest, decReprNat a e = c :: rest ∧ isDigitChar c = true := by
  by_cases he : e = 0
  · subst he
    rw [decReprNat, if_pos rfl]
    exact exists_head_digit a
  · rw [decReprNat, if_neg he]
    have hlen := padDigits_length a e
    have hall := padDigits_all_digits a e
    cases hpad : padDigits a e with
    | nil =>
      rw [hpad] at hlen
      simp at hlen
    | cons c t =>
      rw [hpad] at hall hlen
      rw [List.all_cons, Bool.and_eq_true] at hall
      have hk : ∃ k, (c :: t).length - e = k + 1 := by
        simp only [List.length_cons] at hlen ⊢
        refine ⟨t.length - e, ?_⟩
        omega
      obtain ⟨k, hk⟩ := hk
      rw [hk, List.take_succ_cons, List.cons_append]
      exact ⟨c, _, rfl, hall.1⟩

theorem decReprNat_all_lit (a e : Nat) :
    (decReprNat a e).all isLitChar = true := by
  by_cases he : e = 0
  · subst he
    rw [decReprNat, if_pos rfl]
    exact all_lit_of_all_digits _ (natDigits_all_digits a)
  · rw [decReprNat, if_neg he]
    have hall := padDigits_all_digits a e
    rw [List.all_append, List.all_cons]
    have hip : ((padDigits a e).take ((padDigits a e).length - e)).all
        isDigitChar = true := by
      rw [List.all_eq_true] at hall ⊢
      exact fun c hc => hall c ((List.take_sublist _ _).subset hc)
    have hfp : ((padDigits a e).drop ((padDigits a e).length - e)).all
        isDigitChar = true := by
      rw [List.all_eq_true] at hall ⊢
      exact fun c hc => hall c ((List.drop_sublist _ _).subset hc)
    rw [all_lit_of_all_digits _ hip, all_lit_of_all_digits _ hfp]
    simp only [Bool.and_true, Bool.true_and]
    decide

theorem decRepr_all_lit (m : Int) (e : Nat) :
    (decRepr m e).all isLitChar = true := by
  rw [decRepr]
  split
  · rw [List.all_cons, decReprNat_all_lit]
    simp only [Bool.and_true]
    decide
  · exact decReprNat_all_lit _ _

theorem parseDecLit_decRepr (m : Int) (e : Nat)
    (h : decNormal m e = true) :
    parseDecLit (decRepr m e) = some (m, e) := by
  have hn : e = 0 ∨ m.natAbs % 10 ≠ 0 := by
    rw [decNormal, Bool.or_eq_true, beq_iff_eq, bne_iff_ne] at h
    tauto
  by_cases hm : m < 0
  · rw [decRepr, if_pos hm]
    simp only [parseDecLit]
    simp only [if_true]
    rw [parseDecDigits_decReprNat m.natAbs e hn]
    simp [abs_of_neg hm]
  · rw [decRepr, if_neg hm]
    obtain ⟨c, rest, heq, hdig⟩ := exists_head_digit_decReprNat m.natAbs e
    rw [heq]
    simp only [parseDecLit]
    rw [if_neg (fun hc => by rw [hc] at hdig; exact absurd hdig (by decide)),
      if_neg (fun hc => by rw [hc] at hdig; exact absurd hdig (by decide))]
    rw [← heq, parseDecDigits_decReprNat m.natAbs e hn]
    simp [Int.natAbs_of_nonneg (le_of_not_lt hm)]

-- Type tags -----------------------------------------------------------------

/-- Modelled from the spec: canonical text of a type tag. -/
def serTag : GTag → List Char
  | .ti8 => ['i', '8']
  | .ti16 => ['i', '1', '6']
  | .ti32 => ['i', '3', '2']
  | .ti64 => ['i', '6', '4']
  | .tu8 => ['u', '8']
  | .tu16 => ['u', '1', '6']
  | .tu32 => ['u', '3', '2']
  | .tu64 => ['u', '6', '4']
  | .tf32 => ['f', '3', '2']
  | .tf64 => ['f', '6', '4']
  | .tb => ['b']
  | .ts n => 's' :: natDigits n

/-- Modelled from the spec: decode a type tag token; a malformed tag
(e.g. `s` without digits, or an unknown word) is a lex error. -/
def decodeTag (run : List Char) : Option GTag :=
  match run with
  | [] => none
  | c :: rest =>
    if c = 'i' then
      if rest = ['8'] then some .ti8
      else if rest = ['1', '6'] then some .ti16
      else if rest = ['3', '2'] then some .ti32
      else if rest = ['6', '4'] then some .ti64
      else none
    else if c = 'u' then
      if rest = ['8'] then some .tu8
      else if rest = ['1', '6'] then some .tu16
      else if rest = ['3', '2'] then some .tu32
      else if rest = ['6', '4'] then some .tu64
      else none
    else if c = 'f' then
      if rest = ['3', '2'] then some .tf32
      else if rest = ['6', '4'] then some .tf64
      else none
    else if c = 'b' then
      if rest = [] then some .tb else none
    else if c = 's' then (parseDigits rest).map GTag.ts
    else none

theorem decodeTag_serTag (t : GTag) : decodeTag (serTag t) = some t := by
  cases t with
  | ts n =>
    simp only [serTag, decodeTag]
    simp only [if_true, parseDigits_natDigits]
    rfl
  | _ => rfl

theorem serTag_all_lit (t : GTag) : (serTag t).all isLitChar = true := by
  cases t with
  | ts n =>
    simp only [serTag, List.all_cons, Bool.and_eq_true]
    exact ⟨by decide, all_lit_of_all_digits _ (natDigits_all_digits n)⟩
  | _ => decide

theorem serTag_ne_nil (t : GTag) : serTag t ≠ [] := by
  cases t <;> simp [serTag]

-- Scalar decode / serialize -------------------------------------------------

/-- Modelled from the spec: decode an integer literal under a width
constraint; a malformed literal is a `FormatError`, an out-of-range value
a `RangeError` (validated eagerly at parse time). -/
def decodeIntVal (signedTag : Bool) (lo hi : Int) (run : List Char) :
    Except GblnError Int :=
  match parseIntLit signedTag run with
  | none => .error .formatError
  | some v => if lo ≤ v ∧ v ≤ hi then .ok v else .error .rangeError

/-- Modelled from the spec: decode one scalar literal according to its
type tag (section 4.2): eager range validation for integers, exact
decimal for floats, `t`/`f` for bool, verbatim UTF-8 text with a byte
length bound for `sN`. -/
def decodeScalar (tag : GTag) (run : List Char) :
    Except GblnError GblnValue :=
  match tag with
  | .ti8 => (decodeIntVal true (-128) 127 run).map GblnValue.i8
  | .ti16 => (decodeIntVal true (-32768) 32767 run).map GblnValue.i16
  | .ti32 =>
    (decodeIntVal true (-2147483648) 2147483647 run).map GblnValue.i32
  | .ti64 =>
    (decodeIntVal true (-9223372036854775808) 9223372036854775807 run).map
      GblnValue.i64
  | .tu8 => (decodeIntVal false 0 255 run).map (fun v => GblnValue.u8 v.toNat)
  | .tu16 =>
    (decodeIntVal false 0 65535 run).map (fun v => GblnValue.u16 v.toNat)
  | .tu32 =>
    (decodeIntVal false 0 4294967295 run).map (fun v => GblnValue.u32 v.toNat)
  | .tu64 =>
    (decodeIntVal false 0 18446744073709551615 run).map
      (fun v => GblnValue.u64 v.toNat)
  | .tf32 =>
    match parseDecLit run with
    | none => .error .formatError
    | some p => .ok (.f32 p.1 p.2)
  | .tf64 =>
    match parseDecLit run with
    | none => .error .formatError
    | some p => .ok (.f64 p.1 p.2)
  | .tb =>
    if run = ['t'] then .ok (.bool true)
    else if run = ['f'] then .ok (.bool false)
    else .error .typeError
  | .ts n =>
    if utf8Len run ≤ n then .ok (.str n (String.mk run))
    else .error .lengthError

/-- Modelled from the spec: canonical literal text of a scalar payload
(containers and null have no literal form inside a typed assignment). -/
def serLit : GblnValue → List Char
  | .null => ['n', 'u', 'l', 'l']
  | .bool b => if b then ['t'] else ['f']
  | .i8 v => intRepr v
  | .i16 v => intRepr v
  | .i32 v => intRepr v
  | .i64 v => intRepr v
  | .u8 v => natDigits v
  | .u16 v => natDigits v
  | .u32 v => natDigits v
  | .u64 v => natDigits v
  | .f32 m e => decRepr m e
  | .f64 m e => decRepr m e
  | .str _ s => s.data
  | .object _ => []
  | .array _ => []

/-- The canonical type tag of a scalar value, if it has one. -/
def tagOf : GblnValue → Option GTag
  | .bool _ => some .tb
  | .i8 _ => some .ti8
  | .i16 _ => some .ti16
  | .i32 _ => some .ti32
  | .i64 _ => some .ti64
  | .u8 _ => some .tu8
  | .u16 _ => some .tu16
  | .u32 _ => some .tu32
  | .u64 _ => some .tu64
  | .f32 _ _ => some .tf32
  | .f64 _ _ => some .tf64
  | .str n _ => some (.ts n)
  | _ => none

/-- The spec's scalar invariants: integer payloads within the width's
range, float payloads in decimal normal form, string payloads within the
declared byte length and expressible as a literal token. -/
def wfScalar : GblnValue → Bool
  | .bool _ => true
  | .i8 v => decide (-128 ≤ v ∧ v ≤ 127)
  | .i16 v => decide (-32768 ≤ v ∧ v ≤ 32767)
  | .i32 v => decide (-2147483648 ≤ v ∧ v ≤ 2147483647)
  | .i64 v => decide (-9223372036854775808 ≤ v ∧ v ≤ 9223372036854775807)
  | .u8 v => decide (v ≤ 255)
  | .u16 v => decide (v ≤ 65535)
  | .u32 v => decide (v ≤ 4294967295)
  | .u64 v => decide (v ≤ 18446744073709551615)
  | .f32 m e => decNormal m e
  | .f64 m e => decNormal m e
  | .str n s => decide (utf8Len s.data ≤ n) && s.data.all isLitChar
  | _ => false

theorem parseIntLit_natDigits (s : Bool) (n : Nat) :
    parseIntLit s (natDigits n) = some (n : Int) := by
  obtain ⟨c, rest, heq, hdig⟩ := exists_head_digit n
  rw [heq, parseIntLit_digitHead s c rest hdig, ← heq, parseDigits_natDigits]
  rfl

theorem decodeIntVal_intRepr (s : Bool) (lo hi v : Int)
    (h1 : 0 ≤ v ∨ s = true) (h2 : lo ≤ v ∧ v ≤ hi) :
    decodeIntVal s lo hi (intRepr v) = .ok v := by
  rw [decodeIntVal, parseIntLit_intRepr s v h1]
  dsimp only
  rw [if_pos h2]

theorem decodeIntVal_natDigits (s : Bool) (lo hi : Int) (n : Nat)
    (h2 : lo ≤ (n : Int) ∧ (n : Int) ≤ hi) :
    decodeIntVal s lo hi (natDigits n) = .ok (n : Int) := by
  rw [decodeIntVal, parseIntLit_natDigits s n]
  dsimp only
  rw [if_pos h2]

/-- Round-trip of one scalar: decoding the canonical literal of a
well-formed scalar under its own tag yields the scalar back. -/
theorem decodeScalar_serLit (v : GblnValue) (t : GTag)
    (hwf : wfScalar v = true) (ht : tagOf v = some t) :
    decodeScalar t (serLit v) = .ok v := by
  cases v with
  | bool b =>
    cases ht
    cases b <;> rfl
  | i8 w =>
    cases ht
    rw [serLit, decodeScalar,
      decodeIntVal_intRepr true _ _ w (Or.inr rfl) (by simpa [wfScalar] using hwf)]
    rfl
  | i16 w =>
    cases ht
    rw [serLit, decodeScalar,
      decodeIntVal_intRepr true _ _ w (Or.inr rfl) (by simpa [wfScalar] using hwf)]
    rfl
  | i32 w =>
    cases ht
    rw [serLit, decodeScalar,
      decodeIntVal_intRepr true _ _ w (Or.inr rfl) (by simpa [wfScalar] using hwf)]
    rfl
  | i64 w =>
    cases ht
    rw [serLit, decodeScalar,
      decodeIntVal_intRepr true _ _ w (Or.inr rfl) (by simpa [wfScalar] using hwf)]
    rfl
  | u8 w =>
    cases ht
    have hb : w ≤ 255 := by simpa [wfScalar] using hwf
    rw [serLit, decodeScalar,
      decodeIntVal_natDigits false _ _ w (by constructor <;> [positivity; exact_mod_cast hb])]
    simp [Except.map]
  | u16 w =>
    cases ht
    have hb : w ≤ 65535 := by simpa [wfScalar] using hwf
    rw [serLit, decodeScalar,
      decodeIntVal_natDigits false _ _ w (by constructor <;> [positivity; exact_mod_cast hb])]
    simp [Except.map]
  | u32 w =>
    cases ht
    have hb : w ≤ 4294967295 := by simpa [wfScalar] using hwf
    rw [serLit, decodeScalar,
      decodeIntVal_natDigits false _ _ w (by constructor <;> [positivity; exact_mod_cast hb])]
    simp [Except.map]
  | u64 w =>
    cases ht
    have hb : w ≤ 18446744073709551615 := by simpa [wfScalar] using hwf
    rw [serLit, decodeScalar,
      decodeIntVal_natDigits false _ _ w (by constructor <;> [positivity; exact_mod_cast hb])]
    simp [Except.map]
  | f32 m e =>
    cases ht
    rw [serLit, decodeScalar, parseDecLit_decRepr m e (by simpa [wfScalar] using hwf)]
  | f64 m e =>
    cases ht
    rw [serLit, decodeScalar, parseDecLit_decRepr m e (by simpa [wfScalar] using hwf)]
  | str n s =>
    cases ht
    have hb : utf8Len s.data ≤ n := by
      rw [wfScalar, Bool.and_eq_true] at hwf
      exact of_decide_eq_true hwf.1
    rw [serLit, decodeScalar, if_pos hb]
  | null => exact absurd hwf (by simp [wfScalar])
  | object es => exact absurd hwf (by simp [wfScalar])
  | array es => exact absurd hwf (by simp [wfScalar])

/-- The canonical literal of a well-formed scalar is a single literal
token. -/
theorem serLit_all_lit (v : GblnValue) (hwf : wfScalar v = true) :
    (serLit v).all isLitChar = true := by
  cases v with
  | bool b => cases b <;> decide
  | i8 w => exact intRepr_all_lit w
  | i16 w => exact intRepr_all_lit w
  | i32 w => exact intRepr_all_lit w
  | i64 w => exact intRepr_all_lit w
  | u8 w => exact all_lit_of_all_digits _ (natDigits_all_digits w)
  | u16 w => exact all_lit_of_all_digits _ (natDigits_all_digits w)
  | u32 w => exact all_lit_of_all_digits _ (natDigits_all_digits w)
  | u64 w => exact all_lit_of_all_digits _ (natDigits_all_digits w)
  | f32 m e => exact decRepr_all_lit m e
  | f64 m e => exact decRepr_all_lit m e
  | str n s =>
    rw [wfScalar, Bool.and_eq_true] at hwf
    exact hwf.2
  | null => exact absurd hwf (by simp [wfScalar])
  | object es => exact absurd hwf (by simp [wfScalar])
  | array es => exact absurd hwf (by simp [wfScalar])

-- Normality of parsed decimals ----------------------------------------------

theorem normDec_normal (a e : Nat) :
    (normDec a e).2 = 0 ∨ (normDec a e).1 % 10 ≠ 0 := by
  induction e generalizing a with
  | zero => left; rfl
  | succ e ih =>
    rw [normDec]
    split
    · exact ih (a / 10)
    · rename_i h
      right
      exact h

theorem parseDecDigits_normal (run : List Char) (p : Nat × Nat)
    (h : parseDecDigits run = some p) : p.2 = 0 ∨ p.1 % 10 ≠ 0 := by
  rw [parseDecDigits] at h
  split at h
  · rename_i ip heq
    cases hp : parseDigits ip with
    | none => rw [hp] at h; simp at h
    | some n =>
      rw [hp] at h
      simp only [Option.map] at h
      cases h
      left
      rfl
  · rename_i ip fp heq
    split at h
    · rename_i a b ha hb
      cases h
      exact normDec_normal _ _
    · cases h

theorem parseDecLit_normal (run : List Char) (m : Int) (e : Nat)
    (h : parseDecLit run = some (m, e)) : decNormal m e = true := by
  have norm_of : ∀ (cs : List Char) (q : Nat × Nat),
      parseDecDigits cs = some q →
      (m = (q.1 : Int) ∨ m = -(q.1 : Int)) → e = q.2 →
      decNormal m e = true := by
    intro cs q hq hm he
    have hn := parseDecDigits_normal cs q hq
    rw [decNormal, Bool.or_eq_true, beq_iff_eq, bne_iff_ne]
    subst he
    rcases hn with hn | hn
    · left; exact hn
    · right
      rcases hm with hm | hm <;> subst hm <;> simpa using hn
  cases run with
  | nil => rw [parseDecLit] at h; cases h
  | cons c rest =>
    rw [parseDecLit] at h
    split at h
    · cases hq : parseDecDigits rest with
      | none => rw [hq] at h; simp at h
      | some q =>
        rw [hq] at h
        simp only [Option.map] at h
        cases h
        exact norm_of rest q hq (Or.inl rfl) rfl
    · split at h
      · cases hq : parseDecDigits rest with
        | none => rw [hq] at h; simp at h
        | some q =>
          rw [hq] at h
          simp only [Option.map] at h
          cases h
          exact norm_of rest q hq (Or.inr rfl) rfl
      · cases hq : parseDecDigits (c :: rest) with
        | none => rw [hq] at h; simp at h
        | some q =>
          rw [hq] at h
          simp only [Option.map] at h
          cases h
          exact norm_of (c :: rest) q hq (Or.inl rfl) rfl

-- Inversion of scalar decoding ----------------------------------------------

theorem decodeIntVal_ok (s : Bool) (lo hi : Int) (run : List Char) (w : Int)
    (h : decodeIntVal s lo hi run = .ok w) : lo ≤ w ∧ w ≤ hi := by
  rw [decodeIntVal] at h
  cases hp : parseIntLit s run with
  | none => rw [hp] at h; cases h
  | some v =>
    rw [hp] at h
    dsimp only at h
    split at h
    · cases h
      assumption
    · cases h

/-- Does a string payload hold a nonempty literal (true for all other
variants)? -/
def strNonempty : GblnValue → Bool
  | .str _ s => decide (s.data ≠ [])
  | _ => true

theorem decodeScalar_ok_base (t : GTag) (run : List Char) (v : GblnValue)
    (hrun : run.all isLitChar = true)
    (h : decodeScalar t run = .ok v) :
    wfScalar v = true ∧ tagOf v = some t ∧
      (run ≠ [] → strNonempty v = true) := by
  cases t with
  | ti8 =>
    rw [decodeScalar] at h
    cases hd : decodeIntVal true (-128) 127 run with
    | error e => rw [hd] at h; cases h
    | ok w =>
      rw [hd] at h
      cases h
      have := decodeIntVal_ok _ _ _ _ _ hd
      refine ⟨by simpa [wfScalar] using this, rfl, fun _ => rfl⟩
  | ti16 =>
    rw [decodeScalar] at h
    cases hd : decodeIntVal true (-32768) 32767 run with
    | error e => rw [hd] at h; cases h
    | ok w =>
      rw [hd] at h
      cases h
      have := decodeIntVal_ok _ _ _ _ _ hd
      refine ⟨by simpa [wfScalar] using this, rfl, fun _ => rfl⟩
  | ti32 =>
    rw [decodeScalar] at h
    cases hd : decodeIntVal true (-2147483648) 2147483647 run with
    | error e => rw [hd] at h; cases h
    | ok w =>
      rw [hd] at h
      cases h
      have := decodeIntVal_ok _ _ _ _ _ hd
      refine ⟨by simpa [wfScalar] using this, rfl, fun _ => rfl⟩
  | ti64 =>
    rw [decodeScalar] at h
    cases hd : decodeIntVal true (-9223372036854775808) 9223372036854775807
        run with
    | error e => rw [hd] at h; cases h
    | ok w =>
      rw [hd] at h
      cases h
      have := decodeIntVal_ok _ _ _ _ _ hd
      refine ⟨by simpa [wfScalar] using this, rfl, fun _ => rfl⟩
  | tu8 =>
    rw [decodeScalar] at h
    cases hd : decodeIntVal false 0 255 run with
    | error e => rw [hd] at h; cases h
    | ok w =>
      rw [hd] at h
      cases h
      have := decodeIntVal_ok _ _ _ _ _ hd
      refine ⟨by simp [wfScalar]; omega, rfl, fun _ => rfl⟩
  | tu16 =>
    rw [decodeScalar] at h
    cases hd : decodeIntVal false 0 65535 run with
    | error e => rw [hd] at h; cases h
    | ok w =>
      rw [hd] at h
      cases h
      have := decodeIntVal_ok _ _ _ _ _ hd
      refine ⟨by simp [wfScalar]; omega, rfl, fun _ => rfl⟩
  | tu32 =>
    rw [decodeScalar] at h
    cases hd : decodeIntVal false 0 4294967295 run with
    | error e => rw [hd] at h; cases h
    | ok w =>
      rw [hd] at h
      cases h
      have := decodeIntVal_ok _ _ _ _ _ hd
      refine ⟨by simp [wfScalar]; omega, rfl, fun _ => rfl⟩
  | tu64 =>
    rw [decodeScalar] at h
    cases hd : decodeIntVal false 0 18446744073709551615 run with
    | error e => rw [hd] at h; cases h
    | ok w =>
      rw [hd] at h
      cases h
      have := decodeIntVal_ok _ _ _ _ _ hd
      refine ⟨by simp [wfScalar]; omega, rfl, fun _ => rfl⟩
  | tf32 =>
    rw [decodeScalar] at h
    cases hp : parseDecLit run with
    | none => rw [hp] at h; cases h
    | some p =>
      rw [hp] at h
      cases h
      refine ⟨?_, rfl, fun _ => rfl⟩
      rw [wfScalar]
      exact parseDecLit_normal run p.1 p.2 (by rw [hp])
  | tf64 =>
    rw [decodeScalar] at h
    cases hp : parseDecLit run with
    | none => rw [hp] at h; cases h
    | some p =>
      rw [hp] at h
      cases h
      refine ⟨?_, rfl, fun _ => rfl⟩
      rw [wfScalar]
      exact parseDecLit_normal run p.1 p.2 (by rw [hp])
  | tb =>
    rw [decodeScalar] at h
    split at h
    · cases h
      exact ⟨rfl, rfl, fun _ => rfl⟩
    · split at h
      · cases h
        exact ⟨rfl, rfl, fun _ => rfl⟩
      · cases h
  | ts n =>
    rw [decodeScalar] at h
    split at h
    · rename_i hlen
      cases h
      refine ⟨?_, rfl, ?_⟩
      · rw [wfScalar, Bool.and_eq_true]
        exact ⟨decide_eq_true hlen, hrun⟩
      · intro hne
        rw [strNonempty]
        exact decide_eq_true hne
    · cases h

-- Keys and well-formedness --------------------------------------------------

/-- Is `k` among the keys of an entry list? -/
def keyMem (k : String) : List (String × GblnValue) → Bool
  | [] => false
  | (k2, _) :: rest => k == k2 || keyMem k rest

/-- A key is a nonempty identifier token. -/
def wfKey (k : String) : Bool :=
  decide (k.data ≠ []) && k.data.all isLitChar

/-- An array element: a scalar of the array's tag whose literal is a
nonempty token. -/
def elemOK (t : GTag) (v : GblnValue) : Bool :=
  (tagOf v == some t) && wfScalar v && strNonempty v

/-- The spec's array invariant: all elements share one type tag. -/
def wfArray : List GblnValue → Bool
  | [] => true
  | v :: rest =>
    match tagOf v with
    | none => false
    | some t => elemOK t v && rest.all (elemOK t)

/-- Pairwise distinctness of object keys (section 3). -/
def distinctKeys : List (String × GblnValue) → Bool
  | [] => true
  | (k, _) :: rest => !keyMem k rest && distinctKeys rest

mutual

/-- Well-formedness of a member value: a grammar-constructible object,
array or scalar. -/
def wfMemberVal : GblnValue → Bool
  | .object es => wfMembers es && distinctKeys es
  | .array els => wfArray els
  | v => wfScalar v

/-- Every entry has a well-formed key and value. -/
def wfMembers : List (String × GblnValue) → Bool
  | [] => true
  | (k, v) :: rest => wfKey k && wfMemberVal v && wfMembers rest

end

-- Serializer ----------------------------------------------------------------

/-- The element tag an array is serialized with: the canonical tag of its
first element (an empty array is emitted with an arbitrary valid tag). -/
def arrTag : List GblnValue → GTag
  | [] => .ti8
  | v :: _ => (tagOf v).getD .ti8

/-- The single-space separator emitted before a nonempty remainder. -/
def elemSep : List GblnValue → List Char
  | [] => []
  | _ :: _ => [' ']

/-- The single-space separator emitted before a nonempty remainder. -/
def memberSep : List (String × GblnValue) → List Char
  | [] => []
  | _ :: _ => [' ']

/-- Compact serialization of array elements, space separated. -/
def serElems : List GblnValue → List Char
  | [] => []
  | v :: rest => serLit v ++ elemSep rest ++ serElems rest

mutual

/-- Modelled from the spec: compact serialization of one object member
(section 4.3): `key<tag>(lit)`, `key<tag>[lits]`, or `key{members}`. -/
def serMember : String × GblnValue → List Char
  | (k, .object es) => k.data ++ '{' :: (serMembers es ++ ['}'])
  | (k, .array els) =>
    k.data ++
      '<' :: (serTag (arrTag els) ++ '>' :: '[' :: (serElems els ++ [']']))
  | (k, v) =>
    k.data ++
      '<' :: (serTag ((tagOf v).getD .ti8) ++ '>' :: '(' :: (serLit v ++ [')']))

/-- Modelled from the spec: compact serialization of an entry list with
the mandatory single-space separators. -/
def serMembers : List (String × GblnValue) → List Char
  | [] => []
  | m :: rest => serMember m ++ memberSep rest ++ serMembers rest

end

-- Sizes (fuel accounting) ---------------------------------------------------

mutual

/-- Structural size of a value, used for parser fuel accounting. -/
def vSize : GblnValue → Nat
  | .object es => 1 + msSize es
  | .array els => 1 + els.length
  | _ => 1

/-- Structural size of an entry list. -/
def msSize : List (String × GblnValue) → Nat
  | [] => 0
  | (_, v) :: rest => 1 + vSize v + msSize rest

end

-- Parser --------------------------------------------------------------------

/-- Modelled from the spec: parse the whitespace-separated element
literals of a typed array body up to the closing `]`; every element is
decoded with the same type tag, and the first failing element aborts the
parse with its error. -/
def pElems (tag : GTag) : Nat → List Char →
    Except GblnError (List GblnValue × List Char)
  | 0, _ => .error .lexError
  | fuel + 1, cs =>
    match skipWs cs with
    | [] => .error .unterminatedError
    | c :: rest =>
      if c = ']' then .ok ([], rest)
      else
        let p := takeRun (c :: rest)
        if p.1 = [] then .error .lexError
        else
          match decodeScalar tag p.1 with
          | .error e => .error e
          | .ok v =>
            match pElems tag fuel p.2 with
            | .error e => .error e
            | .ok (vs, cs2) => .ok (v :: vs, cs2)

/-- Modelled from the spec: the recursive-descent member parser
(section 4.2).  Parses `member*` until end of input or a closing `}`
(left for the caller), accumulating entries in reverse; a duplicate key
within the body is a `DuplicateKeyError`, and the first validation
failure aborts the whole parse. -/
def pMembers : Nat → List Char → List (String × GblnValue) →
    Except GblnError (List (String × GblnValue) × List Char)
  | 0, _, _ => .error .lexError
  | fuel + 1, cs, acc =>
    match skipWs cs with
    | [] => .ok (acc.reverse, [])
    | c :: rest =>
      if c = '}' then .ok (acc.reverse, c :: rest)
      else
        let p := takeRun (c :: rest)
        if p.1 = [] then .error .lexError
        else if keyMem (String.mk p.1) acc then .error .duplicateKeyError
        else
          match skipWs p.2 with
          | [] => .error .unterminatedError
          | c1 :: cs2 =>
            if c1 = '<' then
              let q := takeRun (skipWs cs2)
              match decodeTag q.1 with
              | none => .error .lexError
              | some tag =>
                match skipWs q.2 with
                | [] => .error .unterminatedError
                | c2 :: cs4 =>
                  if c2 = '>' then
                    match skipWs cs4 with
                    | [] => .error .unterminatedError
                    | c3 :: cs5 =>
                      if c3 = '(' then
                        let r := takeRun (skipWs cs5)
                        match skipWs r.2 with
                        | [] => .error .unterminatedError
                        | c4 :: cs7 =>
                          if c4 = ')' then
                            match decodeScalar tag r.1 with
                            | .error e => .error e
                            | .ok v =>
                              pMembers fuel cs7 ((String.mk p.1, v) :: acc)
                          else .error .lexError
                      else if c3 = '[' then
                        match pElems tag (fuel + 1) cs5 with
                        | .error e => .error e
                        | .ok (vs, cs6) =>
                          pMembers fuel cs6
                            ((String.mk p.1, .array vs) :: acc)
                      else .error .lexError
                  else .error .lexError
            else if c1 = '{' then
              match pMembers fuel cs2 [] with
              | .error e => .error e
              | .ok (entries, cs3) =>
                match cs3 with
                | [] => .error .unterminatedError
                | c5 :: cs6 =>
                  if c5 = '}' then
                    pMembers fuel cs6
                      ((String.mk p.1, .object entries) :: acc)
                  else .error .lexError
            else .error .lexError

/-- Modelled from the spec: `parse(text) → Value | Error` (section 6).
The whole document is the implicit root object; any validation failure
anywhere aborts the parse with only an error. -/
def gbln_parse (input : String) : Except GblnError GblnValue :=
  match pMembers (input.toList.length + 1) input.toList [] with
  | .error e => .error e
  | .ok (es, []) => .ok (.object es)
  | .ok (_, _ :: _) => .error .lexError

/-- Modelled from the spec: `gbln_to_string` — compact serialization of a
parsed document (root object); the core returns a null string for a value
that is not a serializable document root. -/
def gbln_to_string (v : GblnValue) : Option String :=
  match v with
  | .object es => some (String.mk (serMembers es))
  | _ => none

-- Step lemmas for the round-trip proof --------------------------------------

/-- The next character (if any) is not whitespace. -/
def headNotWs : List Char → Prop
  | [] => True
  | c :: _ => isWsChar c = false

/-- A trailing context that legally ends a member list: end of input or a
closing brace. -/
def closesObj : List Char → Prop
  | [] => True
  | c :: _ => c = '}'

theorem skipWs_of_headNotWs (cs : List Char) (h : headNotWs cs) :
    skipWs cs = cs := by
  cases cs with
  | nil => rfl
  | cons c t => exact skipWs_cons_of_not_ws c t h

theorem headNotWs_append_lit (xs rest : List Char)
    (hx : xs.all isLitChar = true) (hr : headNotWs rest) :
    headNotWs (xs ++ rest) := by
  cases xs with
  | nil => exact hr
  | cons c t =>
    rw [List.all_cons, Bool.and_eq_true] at hx
    exact not_ws_of_lit c hx.1

theorem headNotLit_append_sep_elem (rest : List GblnValue) (X : List Char) :
    headNotLit (elemSep rest ++ (serElems rest ++ (']' :: X))) := by
  cases rest with
  | nil => exact (by decide : isLitChar ']' = false)
  | cons v t => exact (by decide : isLitChar ' ' = false)

theorem headNotLit_append_sep_member (rest : List (String × GblnValue))
    (X : List Char) (hX : closesObj X) :
    headNotLit (memberSep rest ++ (serMembers rest ++ X)) := by
  cases rest with
  | cons m t => exact (by decide : isLitChar ' ' = false)
  | nil =>
    rw [memberSep, serMembers, List.nil_append, List.nil_append]
    cases X with
    | nil => trivial
    | cons c t =>
      rw [closesObj] at hX
      subst hX
      exact (by decide : isLitChar '}' = false)

theorem string_mk_data (s : String) : String.mk s.data = s := rfl

theorem pMembers_skip_ws (c : Char) (hc : isWsChar c = true) :
    ∀ (f : Nat) (X : List Char) (acc : List (String × GblnValue)),
    pMembers f (c :: X) acc = pMembers f X acc := by
  intro f X acc
  cases f with
  | zero => rfl
  | succ f => rw [pMembers, pMembers, skipWs_cons_of_ws c X hc]

theorem pMembers_skip_memberSep (rest : List (String × GblnValue)) :
    ∀ (f : Nat) (X : List Char) (acc : List (String × GblnValue)),
    pMembers f (memberSep rest ++ X) acc = pMembers f X acc := by
  intro f X acc
  cases rest with
  | nil => rfl
  | cons m t => exact pMembers_skip_ws ' ' (by decide) f X acc

theorem pElems_skip_elemSep (tag : GTag) (rest : List GblnValue) :
    ∀ (f : Nat) (X : List Char),
    pElems tag f (elemSep rest ++ X) = pElems tag f X := by
  intro f X
  cases rest with
  | nil => rfl
  | cons v t =>
    cases f with
    | zero => rfl
    | succ f =>
      rw [pElems, pElems, elemSep, List.singleton_append,
        skipWs_cons_of_ws ' ' X (by decide)]

theorem tagOf_of_wfScalar (v : GblnValue) (hwf : wfScalar v = true) :
    ∃ t, tagOf v = some t := by
  cases v <;> simp [tagOf] <;> simp [wfScalar] at hwf

theorem serLit_ne_nil_of_elemOK (t : GTag) (v : GblnValue)
    (h : elemOK t v = true) : serLit v ≠ [] := by
  rw [elemOK, Bool.and_eq_true, Bool.and_eq_true] at h
  obtain ⟨⟨htag, hwf⟩, hne⟩ := h
  cases v with
  | bool b => cases b <;> simp [serLit]
  | i8 w => simp [serLit, intRepr]; split <;> simp [natDigits_ne_nil]
  | i16 w => simp [serLit, intRepr]; split <;> simp [natDigits_ne_nil]
  | i32 w => simp [serLit, intRepr]; split <;> simp [natDigits_ne_nil]
  | i64 w => simp [serLit, intRepr]; split <;> simp [natDigits_ne_nil]
  | u8 w => simp [serLit, natDigits_ne_nil]
  | u16 w => simp [serLit, natDigits_ne_nil]
  | u32 w => simp [serLit, natDigits_ne_nil]
  | u64 w => simp [serLit, natDigits_ne_nil]
  | f32 m e =>
    simp [serLit, decRepr]
    split
    · simp
    · cases hd : decReprNat m.natAbs e with
      | nil =>
        exfalso
        obtain ⟨c, r, heq, hdig⟩ := exists_head_digit_decReprNat m.natAbs e
        rw [heq] at hd
        cases hd
      | cons c r => simp
  | f64 m e =>
    simp [serLit, decRepr]
    split
    · simp
    · cases hd : decReprNat m.natAbs e with
      | nil =>
        exfalso
        obtain ⟨c, r, heq, hdig⟩ := exists_head_digit_decReprNat m.natAbs e
        rw [heq] at hd
        cases hd
      | cons c r => simp
  | str n s =>
    rw [strNonempty] at hne
    simpa [serLit] using of_decide_eq_true hne
  | null => simp [wfScalar] at hwf
  | object es => simp [wfScalar] at hwf
  | array els => simp [wfScalar] at hwf

theorem lit_ne_char (c d : Char) (hc : isLitChar c = true)
    (hd : isLitChar d = false) : ¬(c = d) := by
  intro h
  subst h
  rw [hc] at hd
  cases hd

theorem exists_cons_of_ne_nil_all_lit (L : List Char) (h1 : L ≠ [])
    (h2 : L.all isLitChar = true) :
    ∃ c t, L = c :: t ∧ isLitChar c = true := by
  cases L with
  | nil => exact absurd rfl h1
  | cons c t =>
    rw [List.all_cons, Bool.and_eq_true] at h2
    exact ⟨c, t, rfl, h2.1⟩

/-- Parsing the serialized elements of a well-formed array consumes them
exactly, leaving the context after the closing bracket. -/
theorem pElems_ser (t : GTag) (els : List GblnValue) :
    ∀ (X : List Char) (f : Nat),
    els.length + 1 ≤ f →
    els.all (elemOK t) = true →
    pElems t f (serElems els ++ (']' :: X)) = .ok (els, X) := by
  induction els with
  | nil =>
    intro X f hf hall
    cases f with
    | zero => omega
    | succ f =>
      rw [serElems, List.nil_append, pElems,
        skipWs_cons_of_not_ws ']' X (by decide)]
      dsimp only
      rw [if_pos rfl]
  | cons v rest ih =>
    intro X f hf hall
    cases f with
    | zero => omega
    | succ f =>
      rw [List.all_cons, Bool.and_eq_true] at hall
      obtain ⟨hv, hrest⟩ := hall
      have hwf : wfScalar v = true := by
        rw [elemOK, Bool.and_eq_true, Bool.and_eq_true] at hv
        exact hv.1.2
      have htag : tagOf v = some t := by
        rw [elemOK, Bool.and_eq_true, Bool.and_eq_true] at hv
        exact beq_iff_eq.mp hv.1.1
      have hLne := serLit_ne_nil_of_elemOK t v hv
      have hLlit := serLit_all_lit v hwf
      obtain ⟨c0, lt, hL, hc0⟩ := exists_cons_of_ne_nil_all_lit _ hLne hLlit
      rw [serElems]
      have hshape : serLit v ++ elemSep rest ++ serElems rest ++ (']' :: X) =
          c0 :: (lt ++ (elemSep rest ++ (serElems rest ++ (']' :: X)))) := by
        rw [hL]
        simp [List.append_assoc]
      rw [hshape, pElems,
        skipWs_cons_of_not_ws _ _ (not_ws_of_lit c0 hc0)]
      dsimp only
      rw [if_neg (lit_ne_char c0 ']' hc0 (by decide))]
      have htake : takeRun
          (c0 :: (lt ++ (elemSep rest ++ (serElems rest ++ (']' :: X))))) =
          (serLit v, elemSep rest ++ (serElems rest ++ (']' :: X))) := by
        rw [show c0 :: (lt ++ (elemSep rest ++ (serElems rest ++ (']' :: X))))
            = serLit v ++ (elemSep rest ++ (serElems rest ++ (']' :: X))) by
          rw [hL]; rfl]
        exact takeRun_append _ _ hLlit (headNotLit_append_sep_elem rest X)
      rw [htake]
      dsimp only
      rw [if_neg hLne, decodeScalar_serLit v t hwf htag]
      dsimp only
      rw [pElems_skip_elemSep t rest f _, ih X f (by
        simp only [List.length_cons] at hf
        omega) hrest]

theorem headNotLit_cons (c : Char) (Z : List Char)
    (h : isLitChar c = false) : headNotLit (c :: Z) := h

theorem keyMem_of_mem (q : String × GblnValue)
    (l : List (String × GblnValue)) (h : q ∈ l) : keyMem q.1 l = true := by
  induction l with
  | nil => cases h
  | cons p t ih =>
    rw [show keyMem q.1 (p :: t) = (q.1 == p.1 || keyMem q.1 t) by
      cases p; rfl]
    rcases List.mem_cons.mp h with h | h
    · subst h
      simp
    · rw [ih h]
      simp

theorem all_keyMem_nil (es : List (String × GblnValue)) :
    es.all (fun q => !keyMem q.1 []) = true := by
  rw [List.all_eq_true]
  intro q hq
  rfl

theorem all_not_keyMem_cons (rest acc : List (String × GblnValue))
    (k : String) (v : GblnValue)
    (h1 : keyMem k rest = false)
    (h2 : rest.all (fun q => !keyMem q.1 acc) = true) :
    rest.all (fun q => !keyMem q.1 ((k, v) :: acc)) = true := by
  rw [List.all_eq_true] at h2 ⊢
  intro q hq
  have hqa := h2 q hq
  rw [show keyMem q.1 ((k, v) :: acc) = (q.1 == k || keyMem q.1 acc) from rfl]
  have hqk : (q.1 == k) = false := by
    rw [beq_eq_false_iff_ne]
    intro he
    have := keyMem_of_mem q rest hq
    rw [he] at this
    rw [this] at h1
    cases h1
  rw [hqk]
  simpa using hqa

theorem wfArray_to_all (els : List GblnValue) (h : wfArray els = true) :
    els.all (elemOK (arrTag els)) = true := by
  cases els with
  | nil => rfl
  | cons v t =>
    rw [wfArray] at h
    cases ht : tagOf v with
    | none => rw [ht] at h; cases h
    | some t1 =>
      rw [ht] at h
      dsimp only at h
      rw [List.all_cons, arrTag, ht]
      exact h

theorem serMember_object (k : String) (es : List (String × GblnValue)) :
    serMember (k, .object es) = k.data ++ '{' :: (serMembers es ++ ['}']) := by
  rw [serMember]

theorem serMember_array (k : String) (els : List GblnValue) :
    serMember (k, .array els) =
      k.data ++
        '<' :: (serTag (arrTag els) ++ '>' :: '[' :: (serElems els ++ [']'])) := by
  rw [serMember]

theorem serMember_scalar (k : String) (v : GblnValue)
    (hwf : wfScalar v = true) :
    serMember (k, v) =
      k.data ++
        '<' :: (serTag ((tagOf v).getD .ti8) ++ '>' ::
          '(' :: (serLit v ++ [')'])) := by
  cases v with
  | object es => simp [wfScalar] at hwf
  | array els => simp [wfScalar] at hwf
  | null => simp [wfScalar] at hwf
  | bool b => rw [serMember] <;> (intro a h; exact nomatch h)
  | i8 w => rw [serMember] <;> (intro a h; exact nomatch h)
  | i16 w => rw [serMember] <;> (intro a h; exact nomatch h)
  | i32 w => rw [serMember] <;> (intro a h; exact nomatch h)
  | i64 w => rw [serMember] <;> (intro a h; exact nomatch h)
  | u8 w => rw [serMember] <;> (intro a h; exact nomatch h)
  | u16 w => rw [serMember] <;> (intro a h; exact nomatch h)
  | u32 w => rw [serMember] <;> (intro a h; exact nomatch h)
  | u64 w => rw [serMember] <;> (intro a h; exact nomatch h)
  | f32 m e => rw [serMember] <;> (intro a h; exact nomatch h)
  | f64 m e => rw [serMember] <;> (intro a h; exact nomatch h)
  | str n s => rw [serMember] <;> (intro a h; exact nomatch h)

theorem headNotWs_cons (c : Char) (Z : List Char)
    (h : isWsChar c = false) : headNotWs (c :: Z) := h

theorem skipWs_append_all_lit (xs rest : List Char)
    (hx : xs.all isLitChar = true) (hr : headNotWs rest) :
    skipWs (xs ++ rest) = xs ++ rest := by
  cases xs with
  | nil => exact skipWs_of_headNotWs rest hr
  | cons c t =>
    rw [List.all_cons, Bool.and_eq_true] at hx
    rw [List.cons_append]
    exact skipWs_cons_of_not_ws _ _ (not_ws_of_lit c hx.1)

/-- Parsing the serialization of one scalar member consumes it exactly
and pushes the entry, for any continuation `W`. -/
theorem pMembers_step_scalar (k : String) (v : GblnValue)
    (acc : List (String × GblnValue)) (W : List Char) (f : Nat)
    (hkey : wfKey k = true) (hwf : wfScalar v = true)
    (hkacc : keyMem k acc = false) :
    pMembers (f + 1) (serMember (k, v) ++ W) acc =
      pMembers f W ((k, v) :: acc) := by
  obtain ⟨t0, ht0⟩ := tagOf_of_wfScalar v hwf
  rw [wfKey, Bool.and_eq_true] at hkey
  have hkne : k.data ≠ [] := of_decide_eq_true hkey.1
  have hklit : k.data.all isLitChar = true := hkey.2
  obtain ⟨c0, kt, hk, hc0⟩ := exists_cons_of_ne_nil_all_lit k.data hkne hklit
  rw [serMember_scalar k v hwf, ht0, Option.getD_some]
  have hshape :
      (k.data ++ '<' :: (serTag t0 ++ '>' :: '(' :: (serLit v ++ [')']))) ++ W
      = c0 :: (kt ++
          ('<' :: (serTag t0 ++ '>' :: '(' :: (serLit v ++ (')' :: W))))) := by
    rw [hk]
    simp [List.append_assoc]
  rw [hshape, pMembers, skipWs_cons_of_not_ws _ _ (not_ws_of_lit c0 hc0)]
  dsimp only
  rw [if_neg (lit_ne_char c0 '}' hc0 (by decide))]
  have htakeKey : takeRun (c0 :: (kt ++
      ('<' :: (serTag t0 ++ '>' :: '(' :: (serLit v ++ (')' :: W)))))) =
      (k.data,
        '<' :: (serTag t0 ++ '>' :: '(' :: (serLit v ++ (')' :: W)))) := by
    rw [show c0 :: (kt ++
        ('<' :: (serTag t0 ++ '>' :: '(' :: (serLit v ++ (')' :: W))))) =
        k.data ++
          ('<' :: (serTag t0 ++ '>' :: '(' :: (serLit v ++ (')' :: W)))) by
      rw [hk]; rfl]
    exact takeRun_append _ _ hklit (headNotLit_cons '<' _ (by decide))
  rw [htakeKey]
  dsimp only
  rw [if_neg hkne, string_mk_data k, hkacc]
  rw [if_neg Bool.false_ne_true]
  rw [skipWs_cons_of_not_ws '<' _ (by decide)]
  dsimp only
  rw [if_pos rfl]
  rw [skipWs_append_all_lit (serTag t0) _ (serTag_all_lit t0)
    (headNotWs_cons '>' _ (by decide))]
  rw [takeRun_append (serTag t0) _ (serTag_all_lit t0)
    (headNotLit_cons '>' _ (by decide))]
  dsimp only
  rw [decodeTag_serTag t0]
  dsimp only
  rw [skipWs_cons_of_not_ws '>' _ (by decide)]
  dsimp only
  rw [if_pos rfl]
  rw [skipWs_cons_of_not_ws '(' _ (by decide)]
  dsimp only
  rw [if_pos rfl]
  rw [skipWs_append_all_lit (serLit v) _ (serLit_all_lit v hwf)
    (headNotWs_cons ')' W (by decide))]
  rw [takeRun_append (serLit v) _ (serLit_all_lit v hwf)
    (headNotLit_cons ')' W (by decide))]
  dsimp only
  rw [skipWs_cons_of_not_ws ')' W (by decide)]
  dsimp only
  rw [if_pos rfl]
  rw [decodeScalar_serLit v t0 hwf ht0]

/-- Parsing the serialization of one array member consumes it exactly and
pushes the entry, for any continuation `W`. -/
theorem pMembers_step_array (k : String) (els : List GblnValue)
    (acc : List (String × GblnValue)) (W : List Char) (f : Nat)
    (hkey : wfKey k = true) (hwf : wfArray els = true)
    (hkacc : keyMem k acc = false)
    (hlen : els.length + 1 ≤ f + 1) :
    pMembers (f + 1) (serMember (k, .array els) ++ W) acc =
      pMembers f W ((k, .array els) :: acc) := by
  rw [wfKey, Bool.and_eq_true] at hkey
  have hkne : k.data ≠ [] := of_decide_eq_true hkey.1
  have hklit : k.data.all isLitChar = true := hkey.2
  obtain ⟨c0, kt, hk, hc0⟩ := exists_cons_of_ne_nil_all_lit k.data hkne hklit
  rw [serMember_array k els]
  have hshape :
      (k.data ++
        '<' :: (serTag (arrTag els) ++ '>' :: '[' :: (serElems els ++ [']'])))
        ++ W
      = c0 :: (kt ++
          ('<' :: (serTag (arrTag els) ++ '>' :: '[' ::
            (serElems els ++ (']' :: W))))) := by
    rw [hk]
    simp [List.append_assoc]
  rw [hshape, pMembers, skipWs_cons_of_not_ws _ _ (not_ws_of_lit c0 hc0)]
  dsimp only
  rw [if_neg (lit_ne_char c0 '}' hc0 (by decide))]
  have htakeKey : takeRun (c0 :: (kt ++
      ('<' :: (serTag (arrTag els) ++ '>' :: '[' ::
        (serElems els ++ (']' :: W)))))) =
      (k.data,
        '<' :: (serTag (arrTag els) ++ '>' :: '[' ::
          (serElems els ++ (']' :: W)))) := by
    rw [show c0 :: (kt ++
        ('<' :: (serTag (arrTag els) ++ '>' :: '[' ::
          (serElems els ++ (']' :: W))))) =
        k.data ++
          ('<' :: (serTag (arrTag els) ++ '>' :: '[' ::
            (serElems els ++ (']' :: W)))) by
      rw [hk]; rfl]
    exact takeRun_append _ _ hklit (headNotLit_cons '<' _ (by decide))
  rw [htakeKey]
  dsimp only
  rw [if_neg hkne, string_mk_data k, hkacc]
  rw [if_neg Bool.false_ne_true]
  rw [skipWs_cons_of_not_ws '<' _ (by decide)]
  dsimp only
  rw [if_pos rfl]
  rw [skipWs_append_all_lit (serTag (arrTag els)) _
    (serTag_all_lit (arrTag els)) (headNotWs_cons '>' _ (by decide))]
  rw [takeRun_append (serTag (arrTag els)) _ (serTag_all_lit (arrTag els))
    (headNotLit_cons '>' _ (by decide))]
  dsimp only
  rw [decodeTag_serTag (arrTag els)]
  dsimp only
  rw [skipWs_cons_of_not_ws '>' _ (by decide)]
  dsimp only
  rw [if_pos rfl]
  rw [skipWs_cons_of_not_ws '[' _ (by decide)]
  dsimp only
  rw [if_neg (show ¬('[' = '(') by decide), if_pos rfl]
  rw [pElems_ser (arrTag els) els W (f + 1) hlen (wfArray_to_all els hwf)]

/-- Parsing the serialization of one nested-object member consumes it
exactly and pushes the entry, given that the inner member list parses
back to itself. -/
theorem pMembers_step_object (k : String)
    (inner : List (String × GblnValue))
    (acc : List (String × GblnValue)) (W : List Char) (f : Nat)
    (hkey : wfKey k = true)
    (hkacc : keyMem k acc = false)
    (hinner : pMembers f (serMembers inner ++ ('}' :: W)) [] =
      .ok (inner, '}' :: W)) :
    pMembers (f + 1) (serMember (k, .object inner) ++ W) acc =
      pMembers f W ((k, .object inner) :: acc) := by
  rw [wfKey, Bool.and_eq_true] at hkey
  have hkne : k.data ≠ [] := of_decide_eq_true hkey.1
  have hklit : k.data.all isLitChar = true := hkey.2
  obtain ⟨c0, kt, hk, hc0⟩ := exists_cons_of_ne_nil_all_lit k.data hkne hklit
  rw [serMember_object k inner]
  have hshape :
      (k.data ++ '{' :: (serMembers inner ++ ['}'])) ++ W
      = c0 :: (kt ++ ('{' :: (serMembers inner ++ ('}' :: W)))) := by
    rw [hk]
    simp [List.append_assoc]
  rw [hshape, pMembers, skipWs_cons_of_not_ws _ _ (not_ws_of_lit c0 hc0)]
  dsimp only
  rw [if_neg (lit_ne_char c0 '}' hc0 (by decide))]
  have htakeKey : takeRun (c0 :: (kt ++
      ('{' :: (serMembers inner ++ ('}' :: W))))) =
      (k.data, '{' :: (serMembers inner ++ ('}' :: W))) := by
    rw [show c0 :: (kt ++ ('{' :: (serMembers inner ++ ('}' :: W)))) =
        k.data ++ ('{' :: (serMembers inner ++ ('}' :: W))) by
      rw [hk]; rfl]
    exact takeRun_append _ _ hklit (headNotLit_cons '{' _ (by decide))
  rw [htakeKey]
  dsimp only
  rw [if_neg hkne, string_mk_data k, hkacc]
  rw [if_neg Bool.false_ne_true]
  rw [skipWs_cons_of_not_ws '{' _ (by decide)]
  dsimp only
  rw [if_neg (show ¬('{' = '<') by decide), if_pos rfl]
  rw [hinner]
  dsimp only
  rw [if_pos rfl]

theorem wfMemberVal_not_container (v : GblnValue)
    (ho : ∀ es, v = GblnValue.object es → False)
    (ha : ∀ els, v = GblnValue.array els → False) :
    wfMemberVal v = wfScalar v := by
  cases v with
  | object es => exact (ho es rfl).elim
  | array els => exact (ha els rfl).elim
  | null => rw [wfMemberVal] <;> (intro a h; exact nomatch h)
  | bool b => rw [wfMemberVal] <;> (intro a h; exact nomatch h)
  | i8 w => rw [wfMemberVal] <;> (intro a h; exact nomatch h)
  | i16 w => rw [wfMemberVal] <;> (intro a h; exact nomatch h)
  | i32 w => rw [wfMemberVal] <;> (intro a h; exact nomatch h)
  | i64 w => rw [wfMemberVal] <;> (intro a h; exact nomatch h)
  | u8 w => rw [wfMemberVal] <;> (intro a h; exact nomatch h)
  | u16 w => rw [wfMemberVal] <;> (intro a h; exact nomatch h)
  | u32 w => rw [wfMemberVal] <;> (intro a h; exact nomatch h)
  | u64 w => rw [wfMemberVal] <;> (intro a h; exact nomatch h)
  | f32 m e => rw [wfMemberVal] <;> (intro a h; exact nomatch h)
  | f64 m e => rw [wfMemberVal] <;> (intro a h; exact nomatch h)
  | str n s => rw [wfMemberVal] <;> (intro a h; exact nomatch h)

/-- Core round-trip, serialization side: the serialization of a
well-formed member list, followed by a legal closing context, parses back
to exactly that list. -/
theorem pMembers_ser (n : Nat) :
    ∀ (es acc : List (String × GblnValue)) (suffix : List Char) (f : Nat),
    msSize es ≤ n →
    wfMembers es = true →
    distinctKeys es = true →
    es.all (fun q => !keyMem q.1 acc) = true →
    closesObj suffix →
    msSize es + 1 ≤ f →
    pMembers f (serMembers es ++ suffix) acc =
      .ok (acc.reverse ++ es, suffix) := by
  induction n using Nat.strong_induction_on with
  | _ n ih =>
    intro es acc suffix f hn hwf hdk hacc hsuf hf
    cases es with
    | nil =>
      rw [msSize] at hf
      cases f with
      | zero => omega
      | succ f =>
        rw [serMembers, List.nil_append, pMembers]
        cases suffix with
        | nil =>
          rw [skipWs]
          dsimp only
          rw [List.append_nil]
        | cons c X =>
          rw [closesObj] at hsuf
          subst hsuf
          rw [skipWs_cons_of_not_ws '}' X (by decide)]
          dsimp only
          rw [if_pos rfl, List.append_nil]
    | cons m rest =>
      obtain ⟨k, v⟩ := m
      rw [wfMembers, Bool.and_eq_true, Bool.and_eq_true] at hwf
      obtain ⟨⟨hkey, hval⟩, hwfrest⟩ := hwf
      rw [distinctKeys, Bool.and_eq_true] at hdk
      obtain ⟨hknotrest, hdkrest⟩ := hdk
      rw [List.all_cons, Bool.and_eq_true] at hacc
      obtain ⟨hkacc0, haccrest⟩ := hacc
      have hkacc : keyMem k acc = false := by simpa using hkacc0
      have hknr : keyMem k rest = false := by simpa using hknotrest
      rw [msSize] at hn hf
      cases f with
      | zero => omega
      | succ f =>
        rw [serMembers]
        rw [show serMember (k, v) ++ memberSep rest ++ serMembers rest ++
            suffix =
            serMember (k, v) ++ (memberSep rest ++ (serMembers rest ++
              suffix)) by simp [List.append_assoc]]
        have hmsrest_lt : msSize rest < n := by omega
        have hcont : pMembers f
            (memberSep rest ++ (serMembers rest ++ suffix))
            ((k, v) :: acc) = .ok (acc.reverse ++ ((k, v) :: rest), suffix)
            := by
          rw [pMembers_skip_memberSep rest f _ _]
          have hrec := ih (msSize rest) hmsrest_lt rest ((k, v) :: acc)
            suffix f (le_refl _) hwfrest hdkrest
            (all_not_keyMem_cons rest acc k v hknr haccrest) hsuf
            (by omega)
          rw [hrec]
          simp [List.append_assoc]
        cases v with
        | null =>
          rw [wfMemberVal_not_container _ (fun a h => GblnValue.noConfusion h)
            (fun a h => GblnValue.noConfusion h)] at hval
          simp [wfScalar] at hval
        | object inner =>
          rw [wfMemberVal, Bool.and_eq_true] at hval
          obtain ⟨hwfin, hdkin⟩ := hval
          rw [vSize] at hn hf
          have hinner := ih (msSize inner) (by omega) inner []
            ('}' :: (memberSep rest ++ (serMembers rest ++ suffix))) f
            (le_refl _) hwfin hdkin (all_keyMem_nil inner) rfl (by omega)
          simp only [List.reverse_nil, List.nil_append] at hinner
          rw [pMembers_step_object k inner acc _ f
            (by rw [wfKey]; exact hkey) hkacc hinner, hcont]
        | array els =>
          rw [wfMemberVal] at hval
          rw [vSize] at hf
          rw [pMembers_step_array k els acc _ f
            (by rw [wfKey]; exact hkey) hval hkacc (by omega), hcont]
        | bool b =>
          rw [wfMemberVal_not_container _ (fun a h => GblnValue.noConfusion h)
            (fun a h => GblnValue.noConfusion h)] at hval
          rw [pMembers_step_scalar k _ acc _ f (by rw [wfKey]; exact hkey)
            hval hkacc, hcont]
        | i8 w =>
          rw [wfMemberVal_not_container _ (fun a h => GblnValue.noConfusion h)
            (fun a h => GblnValue.noConfusion h)] at hval
          rw [pMembers_step_scalar k _ acc _ f (by rw [wfKey]; exact hkey)
            hval hkacc, hcont]
        | i16 w =>
          rw [wfMemberVal_not_container _ (fun a h => GblnValue.noConfusion h)
            (fun a h => GblnValue.noConfusion h)] at hval
          rw [pMembers_step_scalar k _ acc _ f (by rw [wfKey]; exact hkey)
            hval hkacc, hcont]
        | i32 w =>
          rw [wfMemberVal_not_container _ (fun a h => GblnValue.noConfusion h)
            (fun a h => GblnValue.noConfusion h)] at hval
          rw [pMembers_step_scalar k _ acc _ f (by rw [wfKey]; exact hkey)
            hval hkacc, hcont]
        | i64 w =>
          rw [wfMemberVal_not_container _ (fun a h => GblnValue.noConfusion h)
            (fun a h => GblnValue.noConfusion h)] at hval
          rw [pMembers_step_scalar k _ acc _ f (by rw [wfKey]; exact hkey)
            hval hkacc, hcont]
        | u8 w =>
          rw [wfMemberVal_not_container _ (fun a h => GblnValue.noConfusion h)
            (fun a h => GblnValue.noConfusion h)] at hval
          rw [pMembers_step_scalar k _ acc _ f (by rw [wfKey]; exact hkey)
            hval hkacc, hcont]
        | u16 w =>
          rw [wfMemberVal_not_container _ (fun a h => GblnValue.noConfusion h)
            (fun a h => GblnValue.noConfusion h)] at hval
          rw [pMembers_step_scalar k _ acc _ f (by rw [wfKey]; exact hkey)
            hval hkacc, hcont]
        | u32 w =>
          rw [wfMemberVal_not_container _ (fun a h => GblnValue.noConfusion h)
            (fun a h => GblnValue.noConfusion h)] at hval
          rw [pMembers_step_scalar k _ acc _ f (by rw [wfKey]; exact hkey)
            hval hkacc, hcont]
        | u64 w =>
          rw [wfMemberVal_not_container _ (fun a h => GblnValue.noConfusion h)
            (fun a h => GblnValue.noConfusion h)] at hval
          rw [pMembers_step_scalar k _ acc _ f (by rw [wfKey]; exact hkey)
            hval hkacc, hcont]
        | f32 m e =>
          rw [wfMemberVal_not_container _ (fun a h => GblnValue.noConfusion h)
            (fun a h => GblnValue.noConfusion h)] at hval
          rw [pMembers_step_scalar k _ acc _ f (by rw [wfKey]; exact hkey)
            hval hkacc, hcont]
        | f64 m e =>
          rw [wfMemberVal_not_container _ (fun a h => GblnValue.noConfusion h)
            (fun a h => GblnValue.noConfusion h)] at hval
          rw [pMembers_step_scalar k _ acc _ f (by rw [wfKey]; exact hkey)
            hval hkacc, hcont]
        | str len s =>
          rw [wfMemberVal_not_container _ (fun a h => GblnValue.noConfusion h)
            (fun a h => GblnValue.noConfusion h)] at hval
          rw [pMembers_step_scalar k _ acc _ f (by rw [wfKey]; exact hkey)
            hval hkacc, hcont]

theorem serTag_length_pos (t : GTag) : 1 ≤ (serTag t).length := by
  cases t <;> simp [serTag]

theorem serElems_length_ge (els : List GblnValue) :
    els.length - 1 ≤ (serElems els).length := by
  induction els with
  | nil => simp [serElems]
  | cons v rest ih =>
    rw [serElems]
    cases rest with
    | nil => simp [elemSep, serElems]
    | cons w t =>
      simp only [List.length_append, List.length_cons, elemSep,
        List.length_singleton] at *
      omega

theorem vSize_not_container (v : GblnValue)
    (ho : ∀ es, v = GblnValue.object es → False)
    (ha : ∀ els, v = GblnValue.array els → False) :
    vSize v = 1 := by
  cases v with
  | object es => exact (ho es rfl).elim
  | array els => exact (ha els rfl).elim
  | null => rw [vSize] <;> (intro a h; exact GblnValue.noConfusion h)
  | bool b => rw [vSize] <;> (intro a h; exact GblnValue.noConfusion h)
  | i8 w => rw [vSize] <;> (intro a h; exact GblnValue.noConfusion h)
  | i16 w => rw [vSize] <;> (intro a h; exact GblnValue.noConfusion h)
  | i32 w => rw [vSize] <;> (intro a h; exact GblnValue.noConfusion h)
  | i64 w => rw [vSize] <;> (intro a h; exact GblnValue.noConfusion h)
  | u8 w => rw [vSize] <;> (intro a h; exact GblnValue.noConfusion h)
  | u16 w => rw [vSize] <;> (intro a h; exact GblnValue.noConfusion h)
  | u32 w => rw [vSize] <;> (intro a h; exact GblnValue.noConfusion h)
  | u64 w => rw [vSize] <;> (intro a h; exact GblnValue.noConfusion h)
  | f32 m e => rw [vSize] <;> (intro a h; exact GblnValue.noConfusion h)
  | f64 m e => rw [vSize] <;> (intro a h; exact GblnValue.noConfusion h)
  | str n s => rw [vSize] <;> (intro a h; exact GblnValue.noConfusion h)

theorem vSize_pos (v : GblnValue) : 1 ≤ vSize v := by
  cases v with
  | object es => rw [vSize]; omega
  | array els => rw [vSize]; omega
  | null => exact (vSize_not_container _ (fun a h => GblnValue.noConfusion h)
      (fun a h => GblnValue.noConfusion h)).ge
  | bool b => exact (vSize_not_container _ (fun a h => GblnValue.noConfusion h)
      (fun a h => GblnValue.noConfusion h)).ge
  | i8 w => exact (vSize_not_container _ (fun a h => GblnValue.noConfusion h)
      (fun a h => GblnValue.noConfusion h)).ge
  | i16 w => exact (vSize_not_container _ (fun a h => GblnValue.noConfusion h)
      (fun a h => GblnValue.noConfusion h)).ge
  | i32 w => exact (vSize_not_container _ (fun a h => GblnValue.noConfusion h)
      (fun a h => GblnValue.noConfusion h)).ge
  | i64 w => exact (vSize_not_container _ (fun a h => GblnValue.noConfusion h)
      (fun a h => GblnValue.noConfusion h)).ge
  | u8 w => exact (vSize_not_container _ (fun a h => GblnValue.noConfusion h)
      (fun a h => GblnValue.noConfusion h)).ge
  | u16 w => exact (vSize_not_container _ (fun a h => GblnValue.noConfusion h)
      (fun a h => GblnValue.noConfusion h)).ge
  | u32 w => exact (vSize_not_container _ (fun a h => GblnValue.noConfusion h)
      (fun a h => GblnValue.noConfusion h)).ge
  | u64 w => exact (vSize_not_container _ (fun a h => GblnValue.noConfusion h)
      (fun a h => GblnValue.noConfusion h)).ge
  | f32 m e => exact (vSize_not_container _ (fun a h => GblnValue.noConfusion h)
      (fun a h => GblnValue.noConfusion h)).ge
  | f64 m e => exact (vSize_not_container _ (fun a h => GblnValue.noConfusion h)
      (fun a h => GblnValue.noConfusion h)).ge
  | str n s => exact (vSize_not_container _ (fun a h => GblnValue.noConfusion h)
      (fun a h => GblnValue.noConfusion h)).ge

theorem msSize_le_ser_length (n : Nat) :
    ∀ es, msSize es ≤ n → msSize es ≤ (serMembers es).length := by
  induction n using Nat.strong_induction_on with
  | _ n ih =>
    intro es hn
    cases es with
    | nil => rw [msSize]; omega
    | cons m rest =>
      obtain ⟨k, v⟩ := m
      rw [msSize] at hn ⊢
      rw [serMembers, List.length_append, List.length_append]
      have hv1 : 1 ≤ vSize v := vSize_pos v
      have hrest : msSize rest ≤ (serMembers rest).length :=
        ih (msSize rest) (by omega) rest (le_refl _)
      have hmem : 1 + vSize v ≤ (serMember (k, v)).length := by
        cases v with
        | object inner =>
          rw [serMember_object, vSize]
          have hin : msSize inner ≤ (serMembers inner).length := by
            have hv2 : msSize inner < vSize (GblnValue.object inner) := by
              rw [vSize]; omega
            rw [vSize] at hn
            exact ih (msSize inner) (by omega) inner (le_refl _)
          simp only [List.length_append, List.length_cons,
            List.length_singleton]
          omega
        | array els =>
          rw [serMember_array, vSize]
          have h1 := serTag_length_pos (arrTag els)
          have h2 := serElems_length_ge els
          simp only [List.length_append, List.length_cons,
            List.length_singleton]
          omega
        | null =>
          rw [show serMember (k, GblnValue.null) = k.data ++
            '<' :: (serTag ((tagOf (GblnValue.null)).getD .ti8) ++ '>' ::
              '(' :: (serLit (GblnValue.null) ++ [')'])) from by
            rw [serMember] <;> (intro a h; exact GblnValue.noConfusion h)]
          rw [vSize_not_container _ (fun a h => GblnValue.noConfusion h)
            (fun a h => GblnValue.noConfusion h)]
          have h1 := serTag_length_pos ((tagOf (GblnValue.null)).getD .ti8)
          simp only [List.length_append, List.length_cons,
            List.length_singleton]
          omega
        | bool b =>
          rw [show serMember (k, GblnValue.bool b) = k.data ++
            '<' :: (serTag ((tagOf (GblnValue.bool b)).getD .ti8) ++ '>' ::
              '(' :: (serLit (GblnValue.bool b) ++ [')'])) from by
            rw [serMember] <;> (intro a h; exact GblnValue.noConfusion h)]
          rw [vSize_not_container _ (fun a h => GblnValue.noConfusion h)
            (fun a h => GblnValue.noConfusion h)]
          have h1 := serTag_length_pos ((tagOf (GblnValue.bool b)).getD .ti8)
          simp only [List.length_append, List.length_cons,
            List.length_singleton]
          omega
        | i8 w =>
          rw [show serMember (k, GblnValue.i8 w) = k.data ++
            '<' :: (serTag ((tagOf (GblnValue.i8 w)).getD .ti8) ++ '>' ::
              '(' :: (serLit (GblnValue.i8 w) ++ [')'])) from by
            rw [serMember] <;> (intro a h; exact GblnValue.noConfusion h)]
          rw [vSize_not_container _ (fun a h => GblnValue.noConfusion h)
            (fun a h => GblnValue.noConfusion h)]
          have h1 := serTag_length_pos ((tagOf (GblnValue.i8 w)).getD .ti8)
          simp only [List.length_append, List.length_cons,
            List.length_singleton]
          omega
        | i16 w =>
          rw [show serMember (k, GblnValue.i16 w) = k.data ++
            '<' :: (serTag ((tagOf (GblnValue.i16 w)).getD .ti8) ++ '>' ::
              '(' :: (serLit (GblnValue.i16 w) ++ [')'])) from by
            rw [serMember] <;> (intro a h; exact GblnValue.noConfusion h)]
          rw [vSize_not_container _ (fun a h => GblnValue.noConfusion h)
            (fun a h => GblnValue.noConfusion h)]
          have h1 := serTag_length_pos ((tagOf (GblnValue.i16 w)).getD .ti8)
          simp only [List.length_append, List.length_cons,
            List.length_singleton]
          omega
        | i32 w =>
          rw [show serMember (k, GblnValue.i32 w) = k.data ++
            '<' :: (serTag ((tagOf (GblnValue.i32 w)).getD .ti8) ++ '>' ::
              '(' :: (serLit (GblnValue.i32 w) ++ [')'])) from by
            rw [serMember] <;> (intro a h; exact GblnValue.noConfusion h)]
          rw [vSize_not_container _ (fun a h => GblnValue.noConfusion h)
            (fun a h => GblnValue.noConfusion h)]
          have h1 := serTag_length_pos ((tagOf (GblnValue.i32 w)).getD .ti8)
          simp only [List.length_append, List.length_cons,
            List.length_singleton]
          omega
        | i64 w =>
          rw [show serMember (k, GblnValue.i64 w) = k.data ++
            '<' :: (serTag ((tagOf (GblnValue.i64 w)).getD .ti8) ++ '>' ::
              '(' :: (serLit (GblnValue.i64 w) ++ [')'])) from by
            rw [serMember] <;> (intro a h; exact GblnValue.noConfusion h)]
          rw [vSize_not_container _ (fun a h => GblnValue.noConfusion h)
            (fun a h => GblnValue.noConfusion h)]
          have h1 := serTag_length_pos ((tagOf (GblnValue.i64 w)).getD .ti8)
          simp only [List.length_append, List.length_cons,
            List.length_singleton]
          omega
        | u8 w =>
          rw [show serMember (k, GblnValue.u8 w) = k.data ++
            '<' :: (serTag ((tagOf (GblnValue.u8 w)).getD .ti8) ++ '>' ::
              '(' :: (serLit (GblnValue.u8 w) ++ [')'])) from by
            rw [serMember] <;> (intro a h; exact GblnValue.noConfusion h)]
          rw [vSize_not_container _ (fun a h => GblnValue.noConfusion h)
            (fun a h => GblnValue.noConfusion h)]
          have h1 := serTag_length_pos ((tagOf (GblnValue.u8 w)).getD .ti8)
          simp only [List.length_append, List.length_cons,
            List.length_singleton]
          omega
        | u16 w =>
          rw [show serMember (k, GblnValue.u16 w) = k.data ++
            '<' :: (serTag ((tagOf (GblnValue.u16 w)).getD .ti8) ++ '>' ::
              '(' :: (serLit (GblnValue.u16 w) ++ [')'])) from by
            rw [serMember] <;> (intro a h; exact GblnValue.noConfusion h)]
          rw [vSize_not_container _ (fun a h => GblnValue.noConfusion h)
            (fun a h => GblnValue.noConfusion h)]
          have h1 := serTag_length_pos ((tagOf (GblnValue.u16 w)).getD .ti8)
          simp only [List.length_append, List.length_cons,
            List.length_singleton]
          omega
        | u32 w =>
          rw [show serMember (k, GblnValue.u32 w) = k.data ++
            '<' :: (serTag ((tagOf (GblnValue.u32 w)).getD .ti8) ++ '>' ::
              '(' :: (serLit (GblnValue.u32 w) ++ [')'])) from by
            rw [serMember] <;> (intro a h; exact GblnValue.noConfusion h)]
          rw [vSize_not_container _ (fun a h => GblnValue.noConfusion h)
            (fun a h => GblnValue.noConfusion h)]
          have h1 := serTag_length_pos ((tagOf (GblnValue.u32 w)).getD .ti8)
          simp only [List.length_append, List.length_cons,
            List.length_singleton]
          omega
        | u64 w =>
          rw [show serMember (k, GblnValue.u64 w) = k.data ++
            '<' :: (serTag ((tagOf (GblnValue.u64 w)).getD .ti8) ++ '>' ::
              '(' :: (serLit (GblnValue.u64 w) ++ [')'])) from by
            rw [serMember] <;> (intro a h; exact GblnValue.noConfusion h)]
          rw [vSize_not_container _ (fun a h => GblnValue.noConfusion h)
            (fun a h => GblnValue.noConfusion h)]
          have h1 := serTag_length_pos ((tagOf (GblnValue.u64 w)).getD .ti8)
          simp only [List.length_append, List.length_cons,
            List.length_singleton]
          omega
        | f32 m e =>
          rw [show serMember (k, GblnValue.f32 m e) = k.data ++
            '<' :: (serTag ((tagOf (GblnValue.f32 m e)).getD .ti8) ++ '>' ::
              '(' :: (serLit (GblnValue.f32 m e) ++ [')'])) from by
            rw [serMember] <;> (intro a h; exact GblnValue.noConfusion h)]
          rw [vSize_not_container _ (fun a h => GblnValue.noConfusion h)
            (fun a h => GblnValue.noConfusion h)]
          have h1 := serTag_length_pos ((tagOf (GblnValue.f32 m e)).getD .ti8)
          simp only [List.length_append, List.length_cons,
            List.length_singleton]
          omega
        | f64 m e =>
          rw [show serMember (k, GblnValue.f64 m e) = k.data ++
            '<' :: (serTag ((tagOf (GblnValue.f64 m e)).getD .ti8) ++ '>' ::
              '(' :: (serLit (GblnValue.f64 m e) ++ [')'])) from by
            rw [serMember] <;> (intro a h; exact GblnValue.noConfusion h)]
          rw [vSize_not_container _ (fun a h => GblnValue.noConfusion h)
            (fun a h => GblnValue.noConfusion h)]
          have h1 := serTag_length_pos ((tagOf (GblnValue.f64 m e)).getD .ti8)
          simp only [List.length_append, List.length_cons,
            List.length_singleton]
          omega
        | str n s =>
          rw [show serMember (k, GblnValue.str n s) = k.data ++
            '<' :: (serTag ((tagOf (GblnValue.str n s)).getD .ti8) ++ '>' ::
              '(' :: (serLit (GblnValue.str n s) ++ [')'])) from by
            rw [serMember] <;> (intro a h; exact GblnValue.noConfusion h)]
          rw [vSize_not_container _ (fun a h => GblnValue.noConfusion h)
            (fun a h => GblnValue.noConfusion h)]
          have h1 := serTag_length_pos ((tagOf (GblnValue.str n s)).getD .ti8)
          simp only [List.length_append, List.length_cons,
            List.length_singleton]
          omega
      omega

/-- Parsing the compact serialization of a well-formed member list yields
the implicit root object with exactly those members. -/
theorem gbln_parse_serMembers (es : List (String × GblnValue))
    (hwf : wfMembers es = true) (hdk : distinctKeys es = true) :
    gbln_parse (String.mk (serMembers es)) = .ok (.object es) := by
  rw [gbln_parse]
  have htl : (String.mk (serMembers es)).toList = serMembers es := rfl
  rw [htl]
  have hlen := msSize_le_ser_length (msSize es) es (le_refl _)
  have hser := pMembers_ser (msSize es) es [] [] ((serMembers es).length + 1)
    (le_refl _) hwf hdk (all_keyMem_nil es) trivial (by omega)
  simp only [List.append_nil, List.reverse_nil, List.nil_append] at hser
  rw [hser]

-- Well-formedness transfer lemmas -------------------------------------------

theorem wfMembers_append (xs ys : List (String × GblnValue)) :
    wfMembers (xs ++ ys) = (wfMembers xs && wfMembers ys) := by
  induction xs with
  | nil => rw [List.nil_append, wfMembers]; simp
  | cons m t ih =>
    obtain ⟨k, v⟩ := m
    rw [List.cons_append, wfMembers, ih, wfMembers]
    simp [Bool.and_assoc]

theorem wfMembers_reverse_of (l : List (String × GblnValue))
    (h : wfMembers l = true) : wfMembers l.reverse = true := by
  induction l with
  | nil => exact h
  | cons m t ih =>
    obtain ⟨k, v⟩ := m
    rw [wfMembers, Bool.and_eq_true, Bool.and_eq_true] at h
    rw [List.reverse_cons, wfMembers_append, Bool.and_eq_true]
    refine ⟨ih h.2, ?_⟩
    rw [wfMembers, wfMembers]
    simp [h.1.1, h.1.2]

theorem keyMem_true_iff (k : String) (l : List (String × GblnValue)) :
    keyMem k l = true ↔ k ∈ l.map Prod.fst := by
  induction l with
  | nil => simp [keyMem]
  | cons m t ih =>
    obtain ⟨k2, v2⟩ := m
    rw [show keyMem k ((k2, v2) :: t) = (k == k2 || keyMem k t) from rfl]
    simp [ih, beq_iff_eq]

theorem distinctKeys_nodup (l : List (String × GblnValue)) :
    distinctKeys l = true ↔ (l.map Prod.fst).Nodup := by
  induction l with
  | nil => simp [distinctKeys]
  | cons m t ih =>
    obtain ⟨k, v⟩ := m
    rw [distinctKeys, Bool.and_eq_true, List.map_cons, List.nodup_cons]
    rw [Bool.not_eq_true']
    constructor
    · rintro ⟨h1, h2⟩
      refine ⟨?_, ih.mp h2⟩
      intro hmem
      have := (keyMem_true_iff k t).mpr hmem
      rw [this] at h1
      cases h1
    · rintro ⟨h1, h2⟩
      refine ⟨?_, ih.mpr h2⟩
      cases hk : keyMem k t
      · rfl
      · exact absurd ((keyMem_true_iff k t).mp hk) h1

theorem distinctKeys_reverse_of (l : List (String × GblnValue))
    (h : distinctKeys l = true) : distinctKeys l.reverse = true := by
  rw [distinctKeys_nodup] at h ⊢
  rw [List.map_reverse]
  exact List.nodup_reverse.mpr h

theorem wfArray_of_all (t : GTag) (els : List GblnValue)
    (h : els.all (elemOK t) = true) : wfArray els = true := by
  cases els with
  | nil => rfl
  | cons v rest =>
    rw [List.all_cons, Bool.and_eq_true] at h
    have htag : tagOf v = some t := by
      have h1 := h.1
      rw [elemOK, Bool.and_eq_true, Bool.and_eq_true] at h1
      exact beq_iff_eq.mp h1.1.1
    rw [wfArray, htag]
    dsimp only
    rw [Bool.and_eq_true]
    exact h

theorem not_object_of_tagOf (v : GblnValue) (t : GTag)
    (h : tagOf v = some t) : ∀ es, v = GblnValue.object es → False := by
  intro es he
  subst he
  exact Option.noConfusion h

theorem not_array_of_tagOf (v : GblnValue) (t : GTag)
    (h : tagOf v = some t) : ∀ els, v = GblnValue.array els → False := by
  intro els he
  subst he
  exact Option.noConfusion h

theorem wfMemberVal_of_decodeScalar (tag : GTag) (run : List Char)
    (v : GblnValue) (hrun : run.all isLitChar = true)
    (h : decodeScalar tag run = .ok v) : wfMemberVal v = true := by
  obtain ⟨hwf, htag, _⟩ := decodeScalar_ok_base tag run v hrun h
  rw [wfMemberVal_not_container v (not_object_of_tagOf v tag htag)
    (not_array_of_tagOf v tag htag)]
  exact hwf

/-- Soundness of array-element parsing: every produced element matches the
declared tag and the scalar invariants. -/
theorem pElems_ok_wf (t : GTag) :
    ∀ (f : Nat) (cs : List Char) (els : List GblnValue) (rest : List Char),
    pElems t f cs = .ok (els, rest) → els.all (elemOK t) = true := by
  intro f
  induction f with
  | zero =>
    intro cs els rest h
    rw [pElems] at h
    exact Except.noConfusion h
  | succ f ih =>
    intro cs els rest h
    rw [pElems] at h
    cases hs : skipWs cs with
    | nil =>
      rw [hs] at h
      exact Except.noConfusion h
    | cons c rest0 =>
      rw [hs] at h
      dsimp only at h
      by_cases hc : c = ']'
      · rw [if_pos hc] at h
        cases h
        rfl
      · rw [if_neg hc] at h
        rcases htr : takeRun (c :: rest0) with ⟨run, cs1⟩
        rw [htr] at h
        dsimp only at h
        by_cases hrun : run = []
        · rw [if_pos hrun] at h
          exact Except.noConfusion h
        · rw [if_neg hrun] at h
          cases hd : decodeScalar t run with
          | error e =>
            rw [hd] at h
            exact Except.noConfusion h
          | ok v =>
            rw [hd] at h
            cases hrec : pElems t f cs1 with
            | error e =>
              rw [hrec] at h
              exact Except.noConfusion h
            | ok pr =>
              obtain ⟨vs, cs2⟩ := pr
              rw [hrec] at h
              dsimp only at h
              cases h
              rw [List.all_cons, Bool.and_eq_true]
              have hlit : run.all isLitChar = true := by
                have hx := takeRun_all_lit (c :: rest0)
                rw [htr] at hx
                exact hx
              obtain ⟨hwf, htag, hne⟩ := decodeScalar_ok_base t run v hlit hd
              refine ⟨?_, ih cs1 vs _ hrec⟩
              rw [elemOK, htag, Bool.and_eq_true, Bool.and_eq_true]
              exact ⟨⟨by simp, hwf⟩, hne hrun⟩

/-- Soundness of member parsing: a successful parse always produces a
well-formed member list with pairwise-distinct keys, given a well-formed
accumulator. -/
theorem pMembers_ok_wf :
    ∀ (f : Nat) (cs : List Char) (acc es : List (String × GblnValue))
      (rest : List Char),
    pMembers f cs acc = .ok (es, rest) →
    wfMembers acc = true → distinctKeys acc = true →
    wfMembers es = true ∧ distinctKeys es = true := by
  intro f
  induction f with
  | zero =>
    intro cs acc es rest h hacc hdacc
    rw [pMembers] at h
    exact Except.noConfusion h
  | succ f ih =>
    intro cs acc es rest h hacc hdacc
    rw [pMembers] at h
    cases hs : skipWs cs with
    | nil =>
      rw [hs] at h
      dsimp only at h
      cases h
      exact ⟨wfMembers_reverse_of acc hacc, distinctKeys_reverse_of acc hdacc⟩
    | cons c rest0 =>
      rw [hs] at h
      dsimp only at h
      by_cases hc : c = '}'
      · rw [if_pos hc] at h
        cases h
        exact ⟨wfMembers_reverse_of acc hacc,
          distinctKeys_reverse_of acc hdacc⟩
      · rw [if_neg hc] at h
        rcases htr : takeRun (c :: rest0) with ⟨key, cs1⟩
        rw [htr] at h
        dsimp only at h
        by_cases hkey : key = []
        · rw [if_pos hkey] at h
          exact Except.noConfusion h
        · rw [if_neg hkey] at h
          by_cases hdup : keyMem (String.mk key) acc = true
          · rw [if_pos hdup] at h
            exact Except.noConfusion h
          · rw [if_neg hdup] at h
            have hdup2 : keyMem (String.mk key) acc = false := by
              cases hk2 : keyMem (String.mk key) acc
              · rfl
              · exact absurd hk2 hdup
            have hklit : key.all isLitChar = true := by
              have hx := takeRun_all_lit (c :: rest0)
              rw [htr] at hx
              exact hx
            have hwfkey : wfKey (String.mk key) = true := by
              rw [wfKey, Bool.and_eq_true]
              exact ⟨decide_eq_true hkey, hklit⟩
            cases hs2 : skipWs cs1 with
            | nil =>
              rw [hs2] at h
              exact Except.noConfusion h
            | cons c1 cs2 =>
              rw [hs2] at h
              dsimp only at h
              by_cases hc1 : c1 = '<'
              · rw [if_pos hc1] at h
                rcases htag : takeRun (skipWs cs2) with ⟨tagRun, cs3⟩
                rw [htag] at h
                dsimp only at h
                cases hdt : decodeTag tagRun with
                | none =>
                  rw [hdt] at h
                  exact Except.noConfusion h
                | some tag =>
                  rw [hdt] at h
                  cases hs3 : skipWs cs3 with
                  | nil =>
                    rw [hs3] at h
                    exact Except.noConfusion h
                  | cons c2 cs4 =>
                    rw [hs3] at h
                    dsimp only at h
                    by_cases hc2 : c2 = '>'
                    · rw [if_pos hc2] at h
                      cases hs4 : skipWs cs4 with
                      | nil =>
                        rw [hs4] at h
                        exact Except.noConfusion h
                      | cons c3 cs5 =>
                        rw [hs4] at h
                        dsimp only at h
                        by_cases hc3 : c3 = '('
                        · rw [if_pos hc3] at h
                          rcases hlit : takeRun (skipWs cs5) with ⟨litRun, cs6⟩
                          rw [hlit] at h
                          dsimp only at h
                          cases hs5 : skipWs cs6 with
                          | nil =>
                            rw [hs5] at h
                            exact Except.noConfusion h
                          | cons c4 cs7 =>
                            rw [hs5] at h
                            dsimp only at h
                            by_cases hc4 : c4 = ')'
                            · rw [if_pos hc4] at h
                              cases hd : decodeScalar tag litRun with
                              | error e =>
                                rw [hd] at h
                                exact Except.noConfusion h
                              | ok v =>
                                rw [hd] at h
                                have hlitlit : litRun.all isLitChar = true := by
                                  have hx := takeRun_all_lit (skipWs cs5)
                                  rw [hlit] at hx
                                  exact hx
                                refine ih cs7 ((String.mk key, v) :: acc) es
                                  rest h ?_ ?_
                                · rw [wfMembers, Bool.and_eq_true,
                                    Bool.and_eq_true]
                                  exact ⟨⟨hwfkey,
                                    wfMemberVal_of_decodeScalar tag litRun v
                                      hlitlit hd⟩, hacc⟩
                                · rw [distinctKeys, Bool.and_eq_true, hdup2]
                                  exact ⟨rfl, hdacc⟩
                            · rw [if_neg hc4] at h
                              exact Except.noConfusion h
                        · rw [if_neg hc3] at h
                          by_cases hc3b : c3 = '['
                          · rw [if_pos hc3b] at h
                            cases hpe : pElems tag (f + 1) cs5 with
                            | error e =>
                              rw [hpe] at h
                              exact Except.noConfusion h
                            | ok pr =>
                              obtain ⟨vs, cs6⟩ := pr
                              rw [hpe] at h
                              dsimp only at h
                              refine ih cs6
                                ((String.mk key, .array vs) :: acc) es rest h
                                ?_ ?_
                              · rw [wfMembers, Bool.and_eq_true,
                                  Bool.and_eq_true]
                                refine ⟨⟨hwfkey, ?_⟩, hacc⟩
                                rw [wfMemberVal]
                                exact wfArray_of_all tag vs
                                  (pElems_ok_wf tag (f + 1) cs5 vs cs6 hpe)
                              · rw [distinctKeys, Bool.and_eq_true, hdup2]
                                exact ⟨rfl, hdacc⟩
                          · rw [if_neg hc3b] at h
                            exact Except.noConfusion h
                    · rw [if_neg hc2] at h
                      exact Except.noConfusion h
              · rw [if_neg hc1] at h
                by_cases hc1b : c1 = '{'
                · rw [if_pos hc1b] at h
                  cases hrec : pMembers f cs2 [] with
                  | error e =>
                    rw [hrec] at h
                    exact Except.noConfusion h
                  | ok pr =>
                    obtain ⟨entries, cs3⟩ := pr
                    rw [hrec] at h
                    dsimp only at h
                    cases cs3 with
                    | nil => exact Except.noConfusion h
                    | cons c5 cs6 =>
                      dsimp only at h
                      by_cases hc5 : c5 = '}'
                      · rw [if_pos hc5] at h
                        have hin := ih cs2 [] entries _ hrec rfl rfl
                        refine ih cs6
                          ((String.mk key, .object entries) :: acc) es rest h
                          ?_ ?_
                        · rw [wfMembers, Bool.and_eq_true, Bool.and_eq_true]
                          refine ⟨⟨hwfkey, ?_⟩, hacc⟩
                          rw [wfMemberVal, Bool.and_eq_true]
                          exact hin
                        · rw [distinctKeys, Bool.and_eq_true, hdup2]
                          exact ⟨rfl, hdacc⟩
                      · rw [if_neg hc5] at h
                        exact Except.noConfusion h
                · rw [if_neg hc1b] at h
                  exact Except.noConfusion h

/-- A successful parse always produces a well-formed root object. -/
theorem gbln_parse_ok_object (t : String) (v : GblnValue)
    (h : gbln_parse t = .ok v) :
    ∃ es, v = .object es ∧ wfMembers es = true ∧ distinctKeys es = true := by
  rw [gbln_parse] at h
  cases hp : pMembers (t.toList.length + 1) t.toList [] with
  | error e =>
    rw [hp] at h
    exact Except.noConfusion h
  | ok pr =>
    obtain ⟨es, rest⟩ := pr
    rw [hp] at h
    cases rest with
    | nil =>
      dsimp only at h
      cases h
      have := pMembers_ok_wf (t.toList.length + 1) t.toList [] es [] hp rfl rfl
      exact ⟨es, rfl, this⟩
    | cons c rest2 =>
      exact Except.noConfusion h

/-- General round-trip: any successfully parsed value serializes, and the
serialization parses back to the identical value. -/
theorem gbln_roundtrip_aux (t : String) (v : GblnValue)
    (h : gbln_parse t = .ok v) :
    ∃ s, gbln_to_string v = some s ∧ gbln_parse s = .ok v := by
  obtain ⟨es, hv, hwf, hdk⟩ := gbln_parse_ok_object t v h
  subst hv
  exact ⟨String.mk (serMembers es), rfl, gbln_parse_serMembers es hwf hdk⟩

-- Remaining core API (modelled from the spec) --------------------------------

/-- Modelled from the spec: the human-readable message stored in the
last-error slot for each error kind (section 4.4). -/
def errMessage : GblnError → String
  | .lexError => "lex error"
  | .formatError => "format error"
  | .rangeError => "integer out of range"
  | .lengthError => "string exceeds max length"
  | .typeError => "type error"
  | .duplicateKeyError => "duplicate key"
  | .unterminatedError => "unterminated input"
  | .ioError => "io error"

/-- Modelled from the spec: `gbln_parse` together with the process-wide
last-error slot, which is set on every failing operation and left alone on
success. -/
def gbln_parse_with_err (input : String) (lastErr : Option String) :
    Except GblnError GblnValue × Option String :=
  match gbln_parse input with
  | .ok v => (.ok v, lastErr)
  | .error e => (.error e, some (errMessage e))

/-- Modelled from the spec: `parseFrom`/`gbln_parse_file` — the file
system is an opaque byte source (`none` = read failure, surfaced as
`IoError`); on success the text is parsed as usual. -/
def gbln_parse_file (fs : String → Option String) (path : String) :
    Except GblnError GblnValue :=
  match fs path with
  | none => .error .ioError
  | some text => gbln_parse text

/-- Modelled from the spec: `gbln_parse_file` with the last-error slot. -/
def gbln_parse_file_with_err (fs : String → Option String) (path : String)
    (lastErr : Option String) :
    Except GblnError GblnValue × Option String :=
  match gbln_parse_file fs path with
  | .ok v => (.ok v, lastErr)
  | .error e => (.error e, some (errMessage e))

mutual

/-- Modelled from the spec: pretty serialization of one member, with
indentation proportional to nesting depth and one member per line. -/
def prettyMember (ind : Nat) : String × GblnValue → List Char
  | (k, .object es) =>
    List.replicate (2 * ind) ' ' ++ k.data ++
      '{' :: '\n' :: (prettyMembers (ind + 1) es ++
        List.replicate (2 * ind) ' ' ++ ['}', '\n'])
  | (k, v) => List.replicate (2 * ind) ' ' ++ serMember (k, v) ++ ['\n']

/-- Modelled from the spec: pretty serialization of an entry list. -/
def prettyMembers (ind : Nat) : List (String × GblnValue) → List Char
  | [] => []
  | m :: rest => prettyMember ind m ++ prettyMembers ind rest

end

/-- Modelled from the spec: `gbln_to_pretty_string` — indented
serialization of a parsed document root; null for a non-root value. -/
def gbln_to_pretty_string (v : GblnValue) : Option String :=
  match v with
  | .object es => some (String.mk (prettyMembers 0 es))
  | _ => none

-- Core accessors (modelled from the spec) ------------------------------------

/-- Modelled from the spec: typed accessor `(value, success)`; success is
false when the stored variant is not `I8` (the C API writes success
through an out-parameter, as the repository tests call it). -/
def gbln_value_as_i8 : GblnValue → Int × Bool
  | .i8 n => (n, true)
  | _ => (0, false)

/-- Modelled from the spec: typed accessor for `I16`. -/
def gbln_value_as_i16 : GblnValue → Int × Bool
  | .i16 n => (n, true)
  | _ => (0, false)

/-- Modelled from the spec: typed accessor for `I32`. -/
def gbln_value_as_i32 : GblnValue → Int × Bool
  | .i32 n => (n, true)
  | _ => (0, false)

/-- Modelled from the spec: typed accessor for `I64`. -/
def gbln_value_as_i64 : GblnValue → Int × Bool
  | .i64 n => (n, true)
  | _ => (0, false)

/-- Modelled from the spec: typed accessor for `U8`. -/
def gbln_value_as_u8 : GblnValue → Nat × Bool
  | .u8 n => (n, true)
  | _ => (0, false)

/-- Modelled from the spec: typed accessor for `U16`. -/
def gbln_value_as_u16 : GblnValue → Nat × Bool
  | .u16 n => (n, true)
  | _ => (0, false)

/-- Modelled from the spec: typed accessor for `U32`. -/
def gbln_value_as_u32 : GblnValue → Nat × Bool
  | .u32 n => (n, true)
  | _ => (0, false)

/-- Modelled from the spec: typed accessor for `U64`. -/
def gbln_value_as_u64 : GblnValue → Nat × Bool
  | .u64 n => (n, true)
  | _ => (0, false)

/-- Modelled from the spec: typed accessor for `F32` (payload is the
stored exact decimal). -/
def gbln_value_as_f32 : GblnValue → (Int × Nat) × Bool
  | .f32 m e => ((m, e), true)
  | _ => ((0, 0), false)

/-- Modelled from the spec: typed accessor for `F64`. -/
def gbln_value_as_f64 : GblnValue → (Int × Nat) × Bool
  | .f64 m e => ((m, e), true)
  | _ => ((0, 0), false)

/-- Modelled from the spec: typed accessor for `Bool`. -/
def gbln_value_as_bool : GblnValue → Bool × Bool
  | .bool b => (b, true)
  | _ => (false, false)

/-- Modelled from the spec: typed accessor for `Str` (the C API returns a
null pointer on mismatch). -/
def gbln_value_as_string : GblnValue → Option String × Bool
  | .str _ s => (some s, true)
  | _ => (none, false)

-- Core container operations (modelled from the spec) -------------------------

/-- Modelled from the spec: `objectGet` — first entry with the given key,
or absent. -/
def gbln_object_get (v : GblnValue) (k : String) : Option GblnValue :=
  match v with
  | .object es => (es.find? (fun p => p.1 == k)).map Prod.snd
  | _ => none

/-- Modelled from the spec: `objectLen`. -/
def gbln_object_len (v : GblnValue) : Nat :=
  match v with
  | .object es => es.length
  | _ => 0

/-- Modelled from the spec: `arrayLen`. -/
def gbln_array_len (v : GblnValue) : Nat :=
  match v with
  | .array els => els.length
  | _ => 0

/-- Modelled from the spec: `arrayGet` — element at an index, or absent. -/
def gbln_array_get (v : GblnValue) (i : Nat) : Option GblnValue :=
  match v with
  | .array els => els[i]?
  | _ => none

-- JNI binding layer (embedded from src/main/cpp/gbln_jni.cpp) ---------------

/-- From gbln_jni.cpp lines 43-59: `Java_dev_gbln_FfiWrapper_parse`.
A null input string returns 0 without touching the core; any core result
other than `GBLN_OK` returns 0; on success the value handle is returned.
The pair threads the core's last-error slot. -/
def Java_dev_gbln_FfiWrapper_parse (input : Option String)
    (lastErr : Option String) : Option GblnValue × Option String :=
  match input with
  | none => (none, lastErr)
  | some s =>
    match gbln_parse_with_err s lastErr with
    | (.error _, st2) => (none, st2)
    | (.ok v, st2) => (some v, st2)

/-- From gbln_jni.cpp lines 515-531: `Java_dev_gbln_FfiWrapper_parseFile`.
A null path returns 0 without touching the core; any core result other
than `GBLN_OK` returns 0. -/
def Java_dev_gbln_FfiWrapper_parseFile (fs : String → Option String)
    (path : Option String) (lastErr : Option String) :
    Option GblnValue × Option String :=
  match path with
  | none => (none, lastErr)
  | some p =>
    match gbln_parse_file_with_err fs p lastErr with
    | (.error _, st2) => (none, st2)
    | (.ok v, st2) => (some v, st2)

/-- From gbln_jni.cpp lines 506-511:
`Java_dev_gbln_FfiWrapper_getErrorMessage` returns the core's last-error
message (null when none is set). -/
def Java_dev_gbln_FfiWrapper_getErrorMessage (lastErr : Option String) :
    Option String := lastErr

/-- The shared shape of the JNI serializer entry points (gbln_jni.cpp
lines 63-91): a null (0) handle returns null immediately; otherwise the
core serializer is invoked once, and a null core string also maps to a
null Java string.  The second component counts the core serializer
invocations. -/
def jniSerialize (core : GblnValue → Option String)
    (handle : Option GblnValue) : Option String × Nat :=
  match handle with
  | none => (none, 0)
  | some v =>
    match core v with
    | none => (none, 1)
    | some s => (some s, 1)

/-- From gbln_jni.cpp lines 63-76: `Java_dev_gbln_FfiWrapper_toString`. -/
def Java_dev_gbln_FfiWrapper_toString (handle : Option GblnValue) :
    Option String × Nat :=
  jniSerialize gbln_to_string handle

/-- From gbln_jni.cpp lines 78-91:
`Java_dev_gbln_FfiWrapper_toPrettyString`. -/
def Java_dev_gbln_FfiWrapper_toPrettyString (handle : Option GblnValue) :
    Option String × Nat :=
  jniSerialize gbln_to_pretty_string handle

/-- From gbln_jni.cpp lines 315-320: `valueAsI8` returns only the jbyte
value of the core accessor; the success flag is not threaded through. -/
def Java_dev_gbln_FfiWrapper_valueAsI8 (v : GblnValue) : Int :=
  (gbln_value_as_i8 v).1

/-- From gbln_jni.cpp lines 322-327: `valueAsI16` (value only). -/
def Java_dev_gbln_FfiWrapper_valueAsI16 (v : GblnValue) : Int :=
  (gbln_value_as_i16 v).1

/-- From gbln_jni.cpp lines 329-334: `valueAsI32` (value only). -/
def Java_dev_gbln_FfiWrapper_valueAsI32 (v : GblnValue) : Int :=
  (gbln_value_as_i32 v).1

/-- From gbln_jni.cpp lines 336-341: `valueAsI64` (value only). -/
def Java_dev_gbln_FfiWrapper_valueAsI64 (v : GblnValue) : Int :=
  (gbln_value_as_i64 v).1

/-- From gbln_jni.cpp lines 343-348: `valueAsU8` (value only). -/
def Java_dev_gbln_FfiWrapper_valueAsU8 (v : GblnValue) : Nat :=
  (gbln_value_as_u8 v).1

/-- From gbln_jni.cpp lines 350-355: `valueAsU16` (value only). -/
def Java_dev_gbln_FfiWrapper_valueAsU16 (v : GblnValue) : Nat :=
  (gbln_value_as_u16 v).1

/-- From gbln_jni.cpp lines 357-362: `valueAsU32` (value only). -/
def Java_dev_gbln_FfiWrapper_valueAsU32 (v : GblnValue) : Nat :=
  (gbln_value_as_u32 v).1

/-- From gbln_jni.cpp lines 364-369: `valueAsU64` (value only). -/
def Java_dev_gbln_FfiWrapper_valueAsU64 (v : GblnValue) : Nat :=
  (gbln_value_as_u64 v).1

/-- From gbln_jni.cpp lines 371-376: `valueAsF32` (value only). -/
def Java_dev_gbln_FfiWrapper_valueAsF32 (v : GblnValue) : Int × Nat :=
  (gbln_value_as_f32 v).1

/-- From gbln_jni.cpp lines 378-383: `valueAsF64` (value only). -/
def Java_dev_gbln_FfiWrapper_valueAsF64 (v : GblnValue) : Int × Nat :=
  (gbln_value_as_f64 v).1

/-- From gbln_jni.cpp lines 385-390: `valueAsBool` (value only). -/
def Java_dev_gbln_FfiWrapper_valueAsBool (v : GblnValue) : Bool :=
  (gbln_value_as_bool v).1

/-- From gbln_jni.cpp lines 392-399: `valueAsString` (value only; a null
core string becomes a null Java string). -/
def Java_dev_gbln_FfiWrapper_valueAsString (v : GblnValue) : Option String :=
  (gbln_value_as_string v).1

/-- From gbln_jni.cpp lines 208-213: `valueIsI8`. -/
def Java_dev_gbln_FfiWrapper_valueIsI8 (v : GblnValue) : Bool :=
  (gbln_value_as_i8 v).2

/-- From gbln_jni.cpp lines 95-100: `valueNewI8` — a `jbyte` is passed
through `static_cast<int8_t>`, the identity on the jbyte range. -/
def Java_dev_gbln_FfiWrapper_valueNewI8 (value : Int) : GblnValue :=
  .i8 value

/-- From gbln_jni.cpp lines 123-128: `valueNewU8` — the `jshort` argument
goes through `static_cast<uint8_t>`, i.e. reduction mod 2^8, with no
range validation. -/
def Java_dev_gbln_FfiWrapper_valueNewU8 (value : Int) : GblnValue :=
  .u8 ((value % 256).toNat)

/-- From gbln_jni.cpp lines 130-135: `valueNewU16` — the `jint` argument
goes through `static_cast<uint16_t>`, i.e. reduction mod 2^16. -/
def Java_dev_gbln_FfiWrapper_valueNewU16 (value : Int) : GblnValue :=
  .u16 ((value % 65536).toNat)

/-- From gbln_jni.cpp lines 137-142: `valueNewU32` — the `jlong` argument
goes through `static_cast<uint32_t>`, i.e. reduction mod 2^32. -/
def Java_dev_gbln_FfiWrapper_valueNewU32 (value : Int) : GblnValue :=
  .u32 ((value % 4294967296).toNat)

/-- From gbln_jni.cpp lines 144-149: `valueNewU64` — the signed `jlong`
argument goes through `static_cast<uint64_t>`, i.e. reduction mod 2^64. -/
def Java_dev_gbln_FfiWrapper_valueNewU64 (value : Int) : GblnValue :=
  .u64 ((value % 18446744073709551616).toNat)

-- Claim theorems -------------------------------------------------------------

/-- C1: every input accepted by parse yields an Object root; in
particular parsing the single top-level scalar assignment `age<i8>(25)`
yields an Object with exactly one entry, key "age", value I8 25 — never a
bare scalar value as root. -/
theorem C1_root_always_object :
    (∀ (t : String) (v : GblnValue), gbln_parse t = .ok v →
      ∃ es, v = .object es) ∧
    gbln_parse "age<i8>(25)" =
      .ok (.object [("age", GblnValue.i8 25)]) := by
  constructor
  · intro t v h
    obtain ⟨es, hv, _, _⟩ := gbln_parse_ok_object t v h
    exact ⟨es, hv⟩
  · rfl

/-- C1 witness: the general root-is-object part applied at the concrete
input `age<i8>(25)`. -/
theorem C1_root_always_object_witness :
    ∃ es, GblnValue.object [("age", GblnValue.i8 25)] =
      GblnValue.object es :=
  C1_root_always_object.1 "age<i8>(25)" _ C1_root_always_object.2

/-- C3: for every value in the image of parse (the trees constructible
from the grammar), serializing and re-parsing yields the structurally
identical value — same variants, same payloads, same object key order
(Lean equality of the `GblnValue` tree). -/
theorem C3_parse_serialize_roundtrip :
    ∀ (t : String) (v : GblnValue), gbln_parse t = .ok v →
      ∃ s, gbln_to_string v = some s ∧ gbln_parse s = .ok v :=
  gbln_roundtrip_aux

/-- C3 witness: the round trip at the concretely parsed document
`age<i8>(25)`. -/
theorem C3_parse_serialize_roundtrip_witness :
    ∃ s, gbln_to_string (GblnValue.object [("age", GblnValue.i8 25)]) =
        some s ∧
      gbln_parse s = .ok (GblnValue.object [("age", GblnValue.i8 25)]) :=
  C3_parse_serialize_roundtrip "age<i8>(25)" _ rfl

/-- C5: `age<i8>(999)` is rejected with RangeError; 127 and -128 are
accepted with the stored payloads; -129 is rejected. -/
theorem C5_range_rejection :
    gbln_parse "age<i8>(999)" = .error .rangeError ∧
    gbln_parse "age<i8>(127)" =
      .ok (.object [("age", GblnValue.i8 127)]) ∧
    gbln_parse "age<i8>(-128)" =
      .ok (.object [("age", GblnValue.i8 (-128))]) ∧
    gbln_parse "age<i8>(-129)" = .error .rangeError :=
  ⟨rfl, rfl, rfl, rfl⟩

/-- C7: `tags<s16>[kotlin jvm android]` parses to a root object whose
"tags" entry is an Array of length 3; element 0 is the string "kotlin";
every element carries the same tag s16 (maxLen 16). -/
theorem C7_array_shared_tag :
    gbln_parse "tags<s16>[kotlin jvm android]" =
      .ok (.object [("tags", .array
        [.str 16 "kotlin", .str 16 "jvm", .str 16 "android"])]) ∧
    gbln_object_get
      (.object [("tags", .array
        [.str 16 "kotlin", .str 16 "jvm", .str 16 "android"])]) "tags" =
      some (.array [.str 16 "kotlin", .str 16 "jvm", .str 16 "android"]) ∧
    gbln_array_len
      (.array [.str 16 "kotlin", .str 16 "jvm", .str 16 "android"]) = 3 ∧
    gbln_array_get
      (.array [.str 16 "kotlin", .str 16 "jvm", .str 16 "android"]) 0 =
      some (.str 16 "kotlin") :=
  ⟨rfl, rfl, rfl, rfl⟩

/-- C8: `city<s16>(北京)` parses with the exact multi-byte UTF-8 payload
"北京" (6 bytes, 2 code points) and round-trips uncorrupted; the `sN`
bound is measured in bytes, not code points: a 5-byte bound rejects the
2-code-point string with LengthError. -/
theorem C8_utf8_fidelity :
    gbln_parse "city<s16>(北京)" =
      .ok (.object [("city", GblnValue.str 16 "北京")]) ∧
    utf8Len "北京".data = 6 ∧
    "北京".data.length = 2 ∧
    gbln_parse "city<s5>(北京)" = .error .lengthError ∧
    (∃ s, gbln_to_string (.object [("city", GblnValue.str 16 "北京")]) =
        some s ∧
      gbln_parse s = .ok (.object [("city", GblnValue.str 16 "北京")])) := by
  refine ⟨rfl, rfl, by decide, rfl, ?_⟩
  exact gbln_roundtrip_aux "city<s16>(北京)" _ rfl

/-- C2 counterexample: at the binding's public interface the accessor
does not return a (value, success) pair — it returns only the value, so
the mismatching input Null and the matching input I8 0 give identical
binding results even though the core reports opposite success flags. -/
theorem C2_counterexample :
    Java_dev_gbln_FfiWrapper_valueAsI8 GblnValue.null =
      Java_dev_gbln_FfiWrapper_valueAsI8 (GblnValue.i8 0) ∧
    (gbln_value_as_i8 GblnValue.null).2 = false ∧
    (gbln_value_as_i8 (GblnValue.i8 0)).2 = true :=
  ⟨rfl, rfl, rfl⟩

/-- C2 amended: the core typed accessors return (value, success) with
success true exactly on the matching variant, but the JNI binding
functions expose only the value component, discarding success; at the
binding a mismatch is detectable only through the separate `valueIs*`
predicates. -/
theorem C2_amended :
    (∀ v, (gbln_value_as_i8 v).2 = true ↔ ∃ n, v = GblnValue.i8 n) ∧
    (∀ v, (gbln_value_as_i16 v).2 = true ↔ ∃ n, v = GblnValue.i16 n) ∧
    (∀ v, (gbln_value_as_i32 v).2 = true ↔ ∃ n, v = GblnValue.i32 n) ∧
    (∀ v, (gbln_value_as_i64 v).2 = true ↔ ∃ n, v = GblnValue.i64 n) ∧
    (∀ v, (gbln_value_as_u8 v).2 = true ↔ ∃ n, v = GblnValue.u8 n) ∧
    (∀ v, (gbln_value_as_u16 v).2 = true ↔ ∃ n, v = GblnValue.u16 n) ∧
    (∀ v, (gbln_value_as_u32 v).2 = true ↔ ∃ n, v = GblnValue.u32 n) ∧
    (∀ v, (gbln_value_as_u64 v).2 = true ↔ ∃ n, v = GblnValue.u64 n) ∧
    (∀ v, (gbln_value_as_f32 v).2 = true ↔ ∃ m e, v = GblnValue.f32 m e) ∧
    (∀ v, (gbln_value_as_f64 v).2 = true ↔ ∃ m e, v = GblnValue.f64 m e) ∧
    (∀ v, (gbln_value_as_bool v).2 = true ↔ ∃ b, v = GblnValue.bool b) ∧
    (∀ v, (gbln_value_as_string v).2 = true ↔
      ∃ n s, v = GblnValue.str n s) ∧
    (∀ v, Java_dev_gbln_FfiWrapper_valueAsI8 v = (gbln_value_as_i8 v).1) ∧
    (∀ v, Java_dev_gbln_FfiWrapper_valueAsI16 v = (gbln_value_as_i16 v).1) ∧
    (∀ v, Java_dev_gbln_FfiWrapper_valueAsI32 v = (gbln_value_as_i32 v).1) ∧
    (∀ v, Java_dev_gbln_FfiWrapper_valueAsI64 v = (gbln_value_as_i64 v).1) ∧
    (∀ v, Java_dev_gbln_FfiWrapper_valueAsU8 v = (gbln_value_as_u8 v).1) ∧
    (∀ v, Java_dev_gbln_FfiWrapper_valueAsU16 v = (gbln_value_as_u16 v).1) ∧
    (∀ v, Java_dev_gbln_FfiWrapper_valueAsU32 v = (gbln_value_as_u32 v).1) ∧
    (∀ v, Java_dev_gbln_FfiWrapper_valueAsU64 v = (gbln_value_as_u64 v).1) ∧
    (∀ v, Java_dev_gbln_FfiWrapper_valueAsF32 v = (gbln_value_as_f32 v).1) ∧
    (∀ v, Java_dev_gbln_FfiWrapper_valueAsF64 v = (gbln_value_as_f64 v).1) ∧
    (∀ v, Java_dev_gbln_FfiWrapper_valueAsBool v =
      (gbln_value_as_bool v).1) ∧
    (∀ v, Java_dev_gbln_FfiWrapper_valueAsString v =
      (gbln_value_as_string v).1) ∧
    (∀ v, Java_dev_gbln_FfiWrapper_valueIsI8 v = (gbln_value_as_i8 v).2) := by
  refine ⟨?_, ?_, ?_, ?_, ?_, ?_, ?_, ?_, ?_, ?_, ?_, ?_,
    fun v => rfl, fun v => rfl, fun v => rfl, fun v => rfl, fun v => rfl,
    fun v => rfl, fun v => rfl, fun v => rfl, fun v => rfl, fun v => rfl,
    fun v => rfl, fun v => rfl, fun v => rfl⟩
  · intro v; cases v <;> simp [gbln_value_as_i8]
  · intro v; cases v <;> simp [gbln_value_as_i16]
  · intro v; cases v <;> simp [gbln_value_as_i32]
  · intro v; cases v <;> simp [gbln_value_as_i64]
  · intro v; cases v <;> simp [gbln_value_as_u8]
  · intro v; cases v <;> simp [gbln_value_as_u16]
  · intro v; cases v <;> simp [gbln_value_as_u32]
  · intro v; cases v <;> simp [gbln_value_as_u64]
  · intro v; cases v <;> simp [gbln_value_as_f32]
  · intro v; cases v <;> simp [gbln_value_as_f64]
  · intro v; cases v <;> simp [gbln_value_as_bool]
  · intro v; cases v <;> simp [gbln_value_as_string]

/-- C2 amended witness: the success-iff component at the concrete matching
input I8 7. -/
theorem C2_amended_witness : (gbln_value_as_i8 (GblnValue.i8 7)).2 = true :=
  (C2_amended.1 (GblnValue.i8 7)).mpr ⟨7, rfl⟩

/-- C4: any validation failure anywhere aborts the whole parse — the
caller of the JNI binding receives only the null handle together with the
queryable last-error message; concretely, `a<i8>(1) b<i8>(999)` yields a
pure RangeError and no partial value even though its first member is
valid. -/
theorem C4_all_or_nothing :
    (∀ (s : String) (e : GblnError) (st : Option String),
      gbln_parse s = .error e →
        Java_dev_gbln_FfiWrapper_parse (some s) st =
          (none, some (errMessage e)) ∧
        Java_dev_gbln_FfiWrapper_getErrorMessage
          (Java_dev_gbln_FfiWrapper_parse (some s) st).2 =
          some (errMessage e)) ∧
    gbln_parse "a<i8>(1) b<i8>(999)" = .error .rangeError := by
  constructor
  · intro s e st h
    have h1 : Java_dev_gbln_FfiWrapper_parse (some s) st =
        (none, some (errMessage e)) := by
      rw [Java_dev_gbln_FfiWrapper_parse, gbln_parse_with_err, h]
    exact ⟨h1, by rw [h1]; rfl⟩
  · rfl

/-- C4 witness: the general part applied at the concrete failing document
`a<i8>(1) b<i8>(999)`. -/
theorem C4_all_or_nothing_witness :
    Java_dev_gbln_FfiWrapper_parse (some "a<i8>(1) b<i8>(999)") none =
      (none, some (errMessage .rangeError)) ∧
    Java_dev_gbln_FfiWrapper_getErrorMessage
      (Java_dev_gbln_FfiWrapper_parse (some "a<i8>(1) b<i8>(999)") none).2 =
      some (errMessage .rangeError) :=
  C4_all_or_nothing.1 "a<i8>(1) b<i8>(999)" .rangeError none
    C4_all_or_nothing.2

/-- C6 counterexample: the JNI constructor `valueNewU8` applied to the
out-of-range host integer 300 succeeds silently, storing the truncated
payload 44 — construction does not validate the wider host integer. -/
theorem C6_counterexample :
    Java_dev_gbln_FfiWrapper_valueNewU8 300 = GblnValue.u8 44 ∧
    (44 : Nat) ≠ 300 :=
  ⟨rfl, by decide⟩

/-- C6 amended: integer payloads always end up within the width's range,
and parse time enforces range eagerly (RangeError); but the JNI
constructors for U8/U16/U32 guarantee this by modular truncation
(`static_cast`) of the wider host integer, silently wrapping out-of-range
inputs instead of rejecting them. -/
theorem C6_amended :
    (∀ n : Int, ∃ m : Nat,
      Java_dev_gbln_FfiWrapper_valueNewU8 n = GblnValue.u8 m ∧
      m < 256 ∧ (m : Int) = n % 256) ∧
    (∀ n : Int, ∃ m : Nat,
      Java_dev_gbln_FfiWrapper_valueNewU16 n = GblnValue.u16 m ∧
      m < 65536 ∧ (m : Int) = n % 65536) ∧
    (∀ n : Int, ∃ m : Nat,
      Java_dev_gbln_FfiWrapper_valueNewU32 n = GblnValue.u32 m ∧
      m < 4294967296 ∧ (m : Int) = n % 4294967296) ∧
    gbln_parse "age<i8>(999)" = .error .rangeError ∧
    gbln_parse "v<u8>(300)" = .error .rangeError := by
  refine ⟨fun n => ⟨(n % 256).toNat, rfl, by omega, by omega⟩,
    fun n => ⟨(n % 65536).toNat, rfl, by omega, by omega⟩,
    fun n => ⟨(n % 4294967296).toNat, rfl, by omega, by omega⟩,
    rfl, rfl⟩

/-- C6 amended witness: the U8 component at the concrete host input 300
(stored as 44 = 300 mod 256). -/
theorem C6_amended_witness :
    ∃ m : Nat, Java_dev_gbln_FfiWrapper_valueNewU8 300 = GblnValue.u8 m ∧
      m < 256 ∧ (m : Int) = 300 % 256 :=
  C6_amended.1 300

/-- C9: the JNI parse entry points collapse every failure to the return
value 0: a null input returns 0 without touching the core, and any core
error returns 0 — so a null input and a parse error are indistinguishable
from the return value alone, and only the getErrorMessage side channel
tells them apart (concretely: a null input leaves the slot empty while a
range error sets it). -/
theorem C9_jni_collapses_failures :
    (∀ st, Java_dev_gbln_FfiWrapper_parse none st = (none, st)) ∧
    (∀ (s : String) (e : GblnError) (st : Option String),
      gbln_parse s = .error e →
        (Java_dev_gbln_FfiWrapper_parse (some s) st).1 = none) ∧
    (∀ fs st, Java_dev_gbln_FfiWrapper_parseFile fs none st = (none, st)) ∧
    (∀ (fs : String → Option String) (p : String) (e : GblnError)
        (st : Option String),
      gbln_parse_file fs p = .error e →
        (Java_dev_gbln_FfiWrapper_parseFile fs (some p) st).1 = none) ∧
    ((Java_dev_gbln_FfiWrapper_parse none none).1 =
      (Java_dev_gbln_FfiWrapper_parse (some "age<i8>(999)") none).1 ∧
     Java_dev_gbln_FfiWrapper_getErrorMessage
       (Java_dev_gbln_FfiWrapper_parse none none).2 = none ∧
     Java_dev_gbln_FfiWrapper_getErrorMessage
       (Java_dev_gbln_FfiWrapper_parse (some "age<i8>(999)") none).2 =
       some (errMessage .rangeError)) := by
  refine ⟨fun st => rfl, ?_, fun fs st => rfl, ?_, rfl, rfl, rfl⟩
  · intro s e st h
    rw [Java_dev_gbln_FfiWrapper_parse, gbln_parse_with_err, h]
  · intro fs p e st h
    rw [Java_dev_gbln_FfiWrapper_parseFile, gbln_parse_file_with_err, h]

/-- C9 witness: the core-error component applied at the concrete failing
input `age<i8>(999)`. -/
theorem C9_jni_collapses_failures_witness :
    (Java_dev_gbln_FfiWrapper_parse (some "age<i8>(999)") none).1 = none :=
  C9_jni_collapses_failures.2.1 "age<i8>(999)" .rangeError none rfl

/-- C10: for the null value handle 0 the JNI serializer entry points
return null with zero core-serializer invocations (no dereference, no
state change — the invocation count is the model's only observable
effect), and when the core serializer returns a null string the binding
likewise returns null. -/
theorem C10_null_handle_serialize :
    (∀ core : GblnValue → Option String,
      jniSerialize core none = (none, 0)) ∧
    Java_dev_gbln_FfiWrapper_toString none = (none, 0) ∧
    Java_dev_gbln_FfiWrapper_toPrettyString none = (none, 0) ∧
    (∀ (core : GblnValue → Option String) (v : GblnValue),
      core v = none → jniSerialize core (some v) = (none, 1)) ∧
    (∀ v, gbln_to_string v = none →
      Java_dev_gbln_FfiWrapper_toString (some v) = (none, 1)) := by
  refine ⟨fun core => rfl, rfl, rfl, ?_, ?_⟩
  · intro core v h
    rw [jniSerialize, h]
  · intro v h
    rw [Java_dev_gbln_FfiWrapper_toString, jniSerialize, h]

/-- C10 witness: the null-core-string component at the concrete
non-document value Null (whose compact serialization is the null
string). -/
theorem C10_null_handle_serialize_witness :
    Java_dev_gbln_FfiWrapper_toString (some GblnValue.null) = (none, 1) :=
  C10_null_handle_serialize.2.2.2.2 GblnValue.null rfl
